import Mathlib

/-!
Verification of the `derailleur` FIT-decoder core.

This file shallowly embeds the decoder's state-machine kernel
(`src/sans/check.rs`, `src/sans/header.rs`, `src/sans/definition.rs`,
`src/sans/data.rs`) and the two drivers (`src/avec/slice.rs`,
`src/avec/reader.rs`) into Lean, and proves the specification's claims
about them.

Modelling conventions:
- Machine bytes and unsigned integers are `Nat`; overflow is modelled with
  explicit `% 2^w` where the source can overflow.  Signed integers are
  `Int` via two's-complement decoding.  IEEE floats are carried as their
  raw bit patterns (a `Nat`): `fN::from_le_bytes`/`from_be_bytes` are
  bit-level bijections, and comparison with `fN::MAX` holds exactly on
  `MAX`'s unique bit pattern (`MAX` is neither a zero nor a NaN), so the
  bit-pattern model is exact for everything the decoder does with floats.
- Rust panics are modelled as distinguished outcomes, kept separate from
  returned errors: `DecodeError.panicTryInto` for the
  `try_into().unwrap()` on the trailing-CRC slice in `slice.rs`, and
  `DefinitionFieldAlt.advance` returning `none` for the `unreachable!()`
  in `definition.rs` (propagated by the drivers as
  `DecodeError.panicUnreachable`).
- Driver loops are written with an explicit fuel counter (`Nat`) so that
  every definition is a total, executable function.  The top-level entry
  points pass `r.length + 2` fuel; every loop iteration of the source
  consumes at least one input byte, so fuel exhaustion (`outOfFuel`) is
  unreachable on the inputs any theorem below talks about.
- The user sink is modelled as a trace of calls (`List SinkCall`) plus an
  acceptance function `A : List SinkCall → Nat → Bool` giving, for each
  `add_record` call, whether the document receiver returns `Some`
  (deterministic in the history of calls made so far and the global
  message number).
-/

namespace Derailleur

/-! ## Byte utilities -/

/-- `uN::from_le_bytes`: little-endian value of a byte list. -/
def leVal : List Nat → Nat
  | [] => 0
  | b :: rest => b + 256 * leVal rest

/-- `uN::from_be_bytes`: big-endian value of a byte list. -/
def beVal (r : List Nat) : Nat := leVal r.reverse

/-- Decode a byte list with the given endianness (`true` = little). -/
def rawVal (is_le : Bool) (r : List Nat) : Nat :=
  if is_le then leVal r else beVal r

/-- Reinterpret an unsigned `w`-bit value as a two's-complement signed
integer (`iN::from_le_bytes` composed after the raw read). -/
def asInt (n w : Nat) : Int :=
  if n < 2 ^ (w - 1) then (n : Int) else (n : Int) - 2 ^ w

/-! ## CRC accumulator (`src/sans/check.rs`) -/

/-- The 16-entry half-byte table `CRC_TABLE`. -/
def crcTable : List Nat :=
  [0x0000, 0xCC01, 0xD801, 0x1400, 0xF001, 0x3C00, 0x2800, 0xE401,
   0xA001, 0x6C00, 0x7800, 0xB401, 0x5000, 0x9C01, 0x8801, 0x4400]

/-- `crc_byte`: accumulate a single byte into a CRC value.  `crc & 0xF` is
`% 16`, `(crc >> 4) & 0x0FFF` is `/ 16 % 4096`, `^` is `Nat.xor`. -/
def crc_byte (crc b : Nat) : Nat :=
  let tmp := crcTable.getD (crc % 16) 0
  let crc := crc / 16 % 4096
  let crc := Nat.xor (Nat.xor crc tmp) (crcTable.getD (b % 16) 0)
  let tmp := crcTable.getD (crc % 16) 0
  let crc := crc / 16 % 4096
  Nat.xor (Nat.xor crc tmp) (crcTable.getD (b / 16 % 16) 0)

/-- `compute_crc`: fold `crc_byte` over a byte slice. -/
def compute_crc (init : Nat) (r : List Nat) : Nat :=
  r.foldl crc_byte init

/-! ## Kernel: headers (`src/sans/header.rs`) -/

/-- `DocumentHeaderError`. -/
inductive DocumentHeaderError
  | notFitData
  | unknownHeaderLength (n : Nat)
deriving DecidableEq

/-- `RecordHeaderError`. -/
inductive RecordHeaderError
  | developerData
deriving DecidableEq

/-- `DocumentHeader::advance` on a 12-byte input.  The returned `Bool` is
the successor token: `true` for `Left(ExtendedDocumentHeader)` (header
size 14), `false` for `Right(RecordHeader)` (header size 12). -/
def DocumentHeader.advance (r : List Nat) :
    Except DocumentHeaderError (Nat × Bool) :=
  let header_size := r.getD 0 0
  let data_size := leVal [r.getD 4 0, r.getD 5 0, r.getD 6 0, r.getD 7 0]
  let data_type := [r.getD 8 0, r.getD 9 0, r.getD 10 0, r.getD 11 0]
  if data_type ≠ [0x2E, 0x46, 0x49, 0x54] then
    .error .notFitData
  else
    match header_size with
    | 14 => .ok (data_size, true)
    | 12 => .ok (data_size, false)
    | n => .error (.unknownHeaderLength n)

/-- `RecordHeader::advance` on a one-byte input.  The successor
`Sum Unit (Option Nat)` is `.inl ()` for `Left(Definition)` and
`.inr time` for `Right((time, DefinitionAlt))`. -/
def RecordHeader.advance (r : List Nat) :
    Except RecordHeaderError (Nat × Sum Unit (Option Nat)) :=
  let b := r.getD 0 0
  if b.testBit 7 then
    -- CompressedHeader: time_offset = bits [0..5], local_message = bits [5..7].
    let time_offset := b % 32
    let local_message := b / 32 % 4
    .ok (local_message, .inr (some time_offset))
  else
    -- NormalHeader: local_message = bits [0..4], is_developer = bit 5,
    -- is_definition = bit 6.
    let local_message := b % 16
    if b.testBit 5 then
      .error .developerData
    else if b.testBit 6 then
      .ok (local_message, .inl ())
    else
      .ok (local_message, .inr none)

/-! ## Kernel: definitions (`src/sans/definition.rs`) -/

/-- `Definition::advance` on a 5-byte input (first pass).  Only
`fields_remaining` (byte 4 of `DefinitionMessage`) is examined; the
successor is `.inl fields_remaining` for `Left(DefinitionField)` or
`.inr ()` for `Right(RecordHeader)`. -/
def Definition.advance (r : List Nat) : Sum Nat Unit :=
  let fields_remaining := r.getD 4 0
  if fields_remaining ≠ 0 then .inl fields_remaining else .inr ()

/-- `DefinitionField::advance` (first pass over one 3-byte field
descriptor, bytes ignored).  `fields_remaining - 1` is the `u8`
subtraction of the source; the state is only ever constructed with a
nonzero count, so the subtraction cannot underflow there. -/
def DefinitionField.advance (fields_remaining : Nat) (_r : List Nat) :
    Sum Nat Unit :=
  let fields_remaining := fields_remaining - 1
  if fields_remaining ≠ 0 then .inl fields_remaining else .inr ()

/-- State token `DefinitionFieldAlt`. -/
structure DefinitionFieldAlt where
  fields_remaining : Nat
  is_little_endian : Bool
deriving DecidableEq

/-- `DefinitionAlt::advance` on a 5-byte input (second pass): extracts
the architecture flag and the global message number, and yields
`.inl state` for `Left(DefinitionFieldAlt)` or `.inr ()` for
`Right(RecordHeader)`. -/
def DefinitionAlt.advance (r : List Nat) :
    Nat × Sum DefinitionFieldAlt Unit :=
  let architecture := r.getD 1 0
  let fields_remaining := r.getD 4 0
  let is_little_endian := architecture = 0
  let global_message :=
    if is_little_endian then leVal [r.getD 2 0, r.getD 3 0]
    else beVal [r.getD 2 0, r.getD 3 0]
  let successor : Sum DefinitionFieldAlt Unit :=
    if fields_remaining ≠ 0 then
      .inl ⟨fields_remaining, is_little_endian⟩
    else
      .inr ()
  (global_message, successor)

/-! ## Kernel: data fields (`src/sans/data.rs`) -/

/-- The base types behind the `AnyField` variants (`U8`, `U8Z`, ...). -/
inductive BaseKind
  | u8 | u8z | u16 | u16z | u32 | u32z | u64 | u64z
  | i8 | i16 | i32 | i64
  | f32 | f64
deriving DecidableEq

/-- `size_of::<T::From>()`: storage width in bytes of a base type. -/
def BaseKind.width : BaseKind → Nat
  | .u8 | .u8z | .i8 => 1
  | .u16 | .u16z | .i16 => 2
  | .u32 | .u32z | .i32 | .f32 => 4
  | .u64 | .u64z | .i64 | .f64 => 8

/-- A decoded primitive value as handed to the sink.  Unsigned values are
`Nat`, signed values `Int`, floats their raw IEEE bit pattern. -/
inductive Value
  | natV (n : Nat)
  | intV (z : Int)
  | floatBits (bits : Nat)
deriving DecidableEq

/-- `FieldInner::from` for each base type: decode the raw bytes with the
given endianness and suppress the type's invalid marker (`MAX` for the
signed, normal-unsigned and float types, `MIN = 0` for the `z` types).
For floats the comparison `x != fN::MAX` is modelled on bit patterns
(see the header comment of this file). -/
def FieldInner.from (k : BaseKind) (r : List Nat) (is_le : Bool) :
    Option Value :=
  match k with
  | .u8 =>
    let x := rawVal is_le r
    if x ≠ 255 then some (.natV x) else none
  | .u8z =>
    let x := rawVal is_le r
    if x ≠ 0 then some (.natV x) else none
  | .u16 =>
    let x := rawVal is_le r
    if x ≠ 65535 then some (.natV x) else none
  | .u16z =>
    let x := rawVal is_le r
    if x ≠ 0 then some (.natV x) else none
  | .u32 =>
    let x := rawVal is_le r
    if x ≠ 4294967295 then some (.natV x) else none
  | .u32z =>
    let x := rawVal is_le r
    if x ≠ 0 then some (.natV x) else none
  | .u64 =>
    let x := rawVal is_le r
    if x ≠ 18446744073709551615 then some (.natV x) else none
  | .u64z =>
    let x := rawVal is_le r
    if x ≠ 0 then some (.natV x) else none
  | .i8 =>
    let x := asInt (rawVal is_le r) 8
    if x ≠ 127 then some (.intV x) else none
  | .i16 =>
    let x := asInt (rawVal is_le r) 16
    if x ≠ 32767 then some (.intV x) else none
  | .i32 =>
    let x := asInt (rawVal is_le r) 32
    if x ≠ 2147483647 then some (.intV x) else none
  | .i64 =>
    let x := asInt (rawVal is_le r) 64
    if x ≠ 9223372036854775807 then some (.intV x) else none
  | .f32 =>
    let x := rawVal is_le r
    if x ≠ 0x7F7FFFFF then some (.floatBits x) else none
  | .f64 =>
    let x := rawVal is_le r
    if x ≠ 0x7FEFFFFFFFFFFFFF then some (.floatBits x) else none

/-- The `Field<T>` state token, with the `AnyField` variant tag made
explicit as `kind`. -/
structure FieldSt where
  kind : BaseKind
  fields_remaining : Nat
  bytes_remaining : Nat
  is_little_endian : Bool
deriving DecidableEq

/-- `u8` wrapping subtraction (the release-mode semantics of
`self.bytes_remaining - size`); both operands are below 256. -/
def wsub8 (a b : Nat) : Nat := (a + 256 - b) % 256

/-- `Field::<T>::advance`: decode one element, and step either to the
next array element (`.inr`), or out of the field (`.inl`): to
`Left(DefinitionFieldAlt)` if fields remain, else `Left(RecordHeader)`
(modelled `.inl (.inl _)` / `.inl (.inr ())`). -/
def Field.advance (st : FieldSt) (r : List Nat) :
    Option Value × Sum (Sum DefinitionFieldAlt Unit) FieldSt :=
  let value := FieldInner.from st.kind r st.is_little_endian
  let size := st.kind.width
  let successor : Sum (Sum DefinitionFieldAlt Unit) FieldSt :=
    if st.bytes_remaining = size then
      .inl (if st.fields_remaining ≠ 0 then
              .inl ⟨st.fields_remaining, st.is_little_endian⟩
            else
              .inr ())
    else
      .inr ⟨st.kind, st.fields_remaining, wsub8 st.bytes_remaining size,
            st.is_little_endian⟩
  (value, successor)

/-- `DefinitionFieldAlt::advance` on a 3-byte field descriptor
`(field, size, base_type)`.  The base-type code dispatch reproduces the
source's match table; the `unreachable!()` arm for unknown codes is
modelled as `none` (a Rust panic, not a returned error). -/
def DefinitionFieldAlt.advance (st : DefinitionFieldAlt) (r : List Nat) :
    Option (Nat × FieldSt) :=
  let field := r.getD 0 0
  let size := r.getD 1 0
  let base_type := r.getD 2 0
  let mk : BaseKind → FieldSt := fun k =>
    ⟨k, st.fields_remaining - 1, size, st.is_little_endian⟩
  let successor : Option FieldSt :=
    match base_type with
    | 0x00 => some (mk .u8)
    | 0x01 => some (mk .i8)
    | 0x02 => some (mk .u8)
    | 0x83 => some (mk .i16)
    | 0x84 => some (mk .u16)
    | 0x85 => some (mk .i32)
    | 0x86 => some (mk .u32)
    | 0x07 => some (mk .u8z)
    | 0x88 => some (mk .f32)
    | 0x89 => some (mk .f64)
    | 0x0A => some (mk .u8z)
    | 0x8B => some (mk .u16z)
    | 0x8C => some (mk .u32z)
    | 0x0D => some (mk .u8)
    | 0x8E => some (mk .i64)
    | 0x8F => some (mk .u64)
    | 0x90 => some (mk .u64z)
    | _ => none
  successor.map fun s => (field, s)

/-! ## Sinks (`src/avec.rs`): calls as a trace -/

/-- One call to the user receiver: `FromRecords::add_record` or one of the
`FromRecord` methods. -/
inductive SinkCall
  | addRecord (global : Nat)
  | addTimeOffset (t : Nat)
  | addU8 (field : Nat) (v : Value)
  | addU16 (field : Nat) (v : Value)
  | addU32 (field : Nat) (v : Value)
  | addU64 (field : Nat) (v : Value)
  | addI8 (field : Nat) (v : Value)
  | addI16 (field : Nat) (v : Value)
  | addI32 (field : Nat) (v : Value)
  | addI64 (field : Nat) (v : Value)
  | addF32 (field : Nat) (v : Value)
  | addF64 (field : Nat) (v : Value)
deriving DecidableEq

/-- The `AnyField`-variant → `FromRecord` method dispatch table shared by
both drivers (`U8`/`U8Z` → `add_u8`, ..., `U64`/`U64Z` → `add_u64`). -/
def addFnOf : BaseKind → Nat → Value → SinkCall
  | .u8, f, v => .addU8 f v
  | .u8z, f, v => .addU8 f v
  | .u16, f, v => .addU16 f v
  | .u16z, f, v => .addU16 f v
  | .u32, f, v => .addU32 f v
  | .u32z, f, v => .addU32 f v
  | .u64, f, v => .addU64 f v
  | .u64z, f, v => .addU64 f v
  | .i8, f, v => .addI8 f v
  | .i16, f, v => .addI16 f v
  | .i32, f, v => .addI32 f v
  | .i64, f, v => .addI64 f v
  | .f32, f, v => .addF32 f v
  | .f64, f, v => .addF64 f v

/-- The document receiver's acceptance behaviour: given the calls made so
far and the global message number, does `add_record` return `Some`? -/
abbrev AcceptFn := List SinkCall → Nat → Bool

/-! ## Errors of the drivers -/

/-- Errors (and modelled panics) of both drivers.  `endOfSlice`,
`cyclicRedundancyCheck`, `header` and `developer` are `slice::Error`;
`ioError`, `cyclicRedundancyCheck`, `header` and `developer` are
`reader::Error` (with `ioError` standing for any `std::io::Error`, in
particular the `UnexpectedEof` of an exhausted byte source).
`panicTryInto` and `panicUnreachable` model Rust panics, and `outOfFuel`
is the (unreachable) exhaustion of the explicit loop fuel. -/
inductive DecodeError
  | endOfSlice
  | ioError
  | cyclicRedundancyCheck (found calculated : Nat)
  | header (e : DocumentHeaderError)
  | developer
  | panicTryInto
  | panicUnreachable
  | outOfFuel
deriving DecidableEq

/-- Pointwise update of a table. -/
def updf {α : Type} (t : Nat → α) (l : Nat) (v : α) : Nat → α :=
  fun x => if x = l then v else t x

instance {ε α : Type} [DecidableEq ε] [DecidableEq α] :
    DecidableEq (Except ε α)
  | .ok x, .ok y =>
    if h : x = y then .isTrue (congrArg Except.ok h)
    else .isFalse fun hc => h (Except.ok.inj hc)
  | .error x, .error y =>
    if h : x = y then .isTrue (congrArg Except.error h)
    else .isFalse fun hc => h (Except.error.inj hc)
  | .ok _, .error _ => .isFalse fun hc => Except.noConfusion hc
  | .error _, .ok _ => .isFalse fun hc => Except.noConfusion hc

/-! ## Slice driver (`src/avec/slice.rs`) -/

/-- `slice::take::<N>`: read `r[i .. i+n]`, advancing the offset. -/
def takeS (n : Nat) (r : List Nat) (i : Nat) :
    Except DecodeError (List Nat × Nat) :=
  if i + n ≤ r.length then .ok ((r.drop i).take n, i + n)
  else .error .endOfSlice

/-- The element loop of `slice::decode_data::decode_field`: repeatedly
advance a `Field` state on `W`-byte reads from the data tip `i`,
dispatching each non-suppressed value when a record receiver is present
(`accept`). -/
def decode_field_slice (fuel : Nat) (st : FieldSt) (r : List Nat) (i : Nat)
    (f : Nat) (accept : Bool) (tr : List SinkCall) :
    Except DecodeError (Sum DefinitionFieldAlt Unit × Nat × List SinkCall) :=
  match fuel with
  | 0 => .error .outOfFuel
  | fuel + 1 =>
    match takeS st.kind.width r i with
    | .error e => .error e
    | .ok (chunk, i2) =>
      let (value, successor) := Field.advance st chunk
      let tr2 := match accept, value with
        | true, some v => tr ++ [addFnOf st.kind f v]
        | _, _ => tr
      match successor with
      | .inl s => .ok (s, i2, tr2)
      | .inr st2 => decode_field_slice fuel st2 r i2 f accept tr2

/-- The field loop of `slice::decode_data`: read a 3-byte descriptor from
the d-cursor `j`, then run the element loop on the data tip `i`. -/
def decode_data_fields_slice (F fuel : Nat) (st : DefinitionFieldAlt)
    (r : List Nat) (i j : Nat) (accept : Bool) (tr : List SinkCall) :
    Except DecodeError (Nat × List SinkCall) :=
  match fuel with
  | 0 => .error .outOfFuel
  | fuel + 1 =>
    match takeS 3 r j with
    | .error e => .error e
    | .ok (chunk, j2) =>
      match DefinitionFieldAlt.advance st chunk with
      | none => .error .panicUnreachable
      | some (f, fieldSt) =>
        match decode_field_slice F fieldSt r i f accept tr with
        | .error e => .error e
        | .ok (.inl st2, i2, tr2) =>
          decode_data_fields_slice F fuel st2 r i2 j2 accept tr2
        | .ok (.inr _, i2, tr2) => .ok (i2, tr2)

/-- `slice::decode_data`: second pass over the stored definition at the
d-cursor `j`, interleaved with field bytes from the data tip `i`. -/
def decode_data_slice (F : Nat) (time : Option Nat) (r : List Nat)
    (i j : Nat) (A : AcceptFn) (tr : List SinkCall) :
    Except DecodeError (Nat × List SinkCall) :=
  match takeS 5 r j with
  | .error e => .error e
  | .ok (chunk, j2) =>
    let (global, successor) := DefinitionAlt.advance chunk
    let accept := A tr global
    let tr2 := tr ++ [.addRecord global]
    let tr3 := match time, accept with
      | some t, true => tr2 ++ [.addTimeOffset t]
      | _, _ => tr2
    match successor with
    | .inr _ => .ok (i, tr3)
    | .inl st => decode_data_fields_slice F F st r i j2 accept tr3

/-- The descriptor loop of `slice::decode_definition` (first pass). -/
def decode_definition_fields_slice (fuel fr : Nat) (r : List Nat)
    (i : Nat) : Except DecodeError Nat :=
  match fuel with
  | 0 => .error .outOfFuel
  | fuel + 1 =>
    match takeS 3 r i with
    | .error e => .error e
    | .ok (chunk, i2) =>
      match DefinitionField.advance fr chunk with
      | .inl fr2 => decode_definition_fields_slice fuel fr2 r i2
      | .inr _ => .ok i2

/-- `slice::decode_definition`: fast-skip over a definition record's body
(first pass), advancing the data tip. -/
def decode_definition_slice (F : Nat) (r : List Nat) (i : Nat) :
    Except DecodeError Nat :=
  match takeS 5 r i with
  | .error e => .error e
  | .ok (chunk, i2) =>
    match Definition.advance chunk with
    | .inl fr => decode_definition_fields_slice F fr r i2
    | .inr _ => .ok i2

/-- The record loop of `slice::decode` (`while *i < end`). -/
def decode_records_slice (F fuel : Nat) (r : List Nat) (i endPos : Nat)
    (table : Nat → Nat) (A : AcceptFn) (tr : List SinkCall) :
    Except DecodeError (List SinkCall) :=
  match fuel with
  | 0 => .error .outOfFuel
  | fuel + 1 =>
    if i < endPos then
      match takeS 1 r i with
      | .error e => .error e
      | .ok (hb, i2) =>
        match RecordHeader.advance hb with
        | .error .developerData => .error .developer
        | .ok (lcl, .inl _) =>
          match decode_definition_slice F r i2 with
          | .error e => .error e
          | .ok i3 =>
            decode_records_slice F fuel r i3 endPos (updf table lcl i2) A tr
        | .ok (lcl, .inr time) =>
          match decode_data_slice F time r i2 (table lcl) A tr with
          | .error e => .error e
          | .ok (i3, tr2) =>
            decode_records_slice F fuel r i3 endPos table A tr2
    else .ok tr

/-- `slice::decode` (re-exported as `decode_slice`): parse the document
header, apply the cyclic redundancy check eagerly over `r[..end]` against
the little-endian `u16` at `r[end..]` (whose conversion to `[u8; 2]` is
`unwrap`ped — a panic, modelled `panicTryInto`, whenever the tail is not
exactly two bytes), then run the record loop. -/
def decode_slice (r : List Nat) (A : AcceptFn) :
    Except DecodeError (List SinkCall) :=
  match takeS 12 r 0 with
  | .error e => .error e
  | .ok (hb, i1) =>
    match DocumentHeader.advance hb with
    | .error e => .error (.header e)
    | .ok (size, isExtended) =>
      match (if isExtended then takeS 2 r i1 else .ok ([], i1)) with
      | .error e => .error e
      | .ok (_, i2) =>
        let endPos := i2 + size
        if r.length < endPos then .error .endOfSlice
        else if r.length - endPos ≠ 2 then .error .panicTryInto
        else
          let found := leVal ((r.drop endPos).take 2)
          let calculated := compute_crc 0 (r.take endPos)
          if found ≠ calculated then
            .error (.cyclicRedundancyCheck found calculated)
          else
            decode_records_slice (r.length + 2) (r.length + 2) r i2 endPos
              (fun _ => 0) A []

/-! ## Reader driver (`src/avec/reader.rs`)

The byte source is modelled as the list of bytes not yet read (a
`Cursor`); `read_exact` consumes from the front and fails (an
`std::io::Error`, modelled `ioError`) when fewer bytes remain.  The
source's `take(r, Some((i, c)))` advances the byte counter and the CRC
accumulator; `take(d, None)` — used for bytes re-fed from a stored
definition buffer and for the trailing CRC — updates neither. -/

/-- `read_exact` on a list byte source: split off the first `n` bytes. -/
def takeRd (n : Nat) (s : List Nat) :
    Except DecodeError (List Nat × List Nat) :=
  if n ≤ s.length then .ok (s.take n, s.drop n) else .error .ioError

/-- The element loop of `reader::decode_data::decode_field`: like the
slice version, but reading from the stream and rolling the CRC. -/
def decode_field_reader (fuel : Nat) (st : FieldSt) (s : List Nat)
    (i c : Nat) (f : Nat) (accept : Bool) (tr : List SinkCall) :
    Except DecodeError
      (Sum DefinitionFieldAlt Unit × List Nat × Nat × Nat × List SinkCall) :=
  match fuel with
  | 0 => .error .outOfFuel
  | fuel + 1 =>
    match takeRd st.kind.width s with
    | .error e => .error e
    | .ok (chunk, s2) =>
      let i2 := i + st.kind.width
      let c2 := compute_crc c chunk
      let (value, successor) := Field.advance st chunk
      let tr2 := match accept, value with
        | true, some v => tr ++ [addFnOf st.kind f v]
        | _, _ => tr
      match successor with
      | .inl su => .ok (su, s2, i2, c2, tr2)
      | .inr st2 => decode_field_reader fuel st2 s2 i2 c2 f accept tr2

/-- The field loop of `reader::decode_data`: descriptors are re-fed from
the captured definition buffer `d` (not counted, not CRC'd), field bytes
come from the stream. -/
def decode_data_fields_reader (F fuel : Nat) (st : DefinitionFieldAlt)
    (d s : List Nat) (i c : Nat) (accept : Bool) (tr : List SinkCall) :
    Except DecodeError (List Nat × Nat × Nat × List SinkCall) :=
  match fuel with
  | 0 => .error .outOfFuel
  | fuel + 1 =>
    match takeRd 3 d with
    | .error e => .error e
    | .ok (chunk, d2) =>
      match DefinitionFieldAlt.advance st chunk with
      | none => .error .panicUnreachable
      | some (f, fieldSt) =>
        match decode_field_reader F fieldSt s i c f accept tr with
        | .error e => .error e
        | .ok (.inl st2, s2, i2, c2, tr2) =>
          decode_data_fields_reader F fuel st2 d2 s2 i2 c2 accept tr2
        | .ok (.inr _, s2, i2, c2, tr2) => .ok (s2, i2, c2, tr2)

/-- `reader::decode_data`: the captured definition buffer is the
d-cursor; its reads contribute to neither the byte counter nor the CRC
accumulator. -/
def decode_data_reader (F : Nat) (time : Option Nat) (d s : List Nat)
    (i c : Nat) (A : AcceptFn) (tr : List SinkCall) :
    Except DecodeError (List Nat × Nat × Nat × List SinkCall) :=
  match takeRd 5 d with
  | .error e => .error e
  | .ok (chunk, d2) =>
    let (global, successor) := DefinitionAlt.advance chunk
    let accept := A tr global
    let tr2 := tr ++ [.addRecord global]
    let tr3 := match time, accept with
      | some t, true => tr2 ++ [.addTimeOffset t]
      | _, _ => tr2
    match successor with
    | .inr _ => .ok (s, i, c, tr3)
    | .inl st => decode_data_fields_reader F F st d2 s i c accept tr3

/-- The descriptor loop of `reader::decode_definition`: each 3-byte chunk
read from the stream is appended to the slot buffer `d`. -/
def decode_definition_fields_reader (fuel fr : Nat) (d s : List Nat)
    (i c : Nat) :
    Except DecodeError (List Nat × List Nat × Nat × Nat) :=
  match fuel with
  | 0 => .error .outOfFuel
  | fuel + 1 =>
    match takeRd 3 s with
    | .error e => .error e
    | .ok (chunk, s2) =>
      let i2 := i + 3
      let c2 := compute_crc c chunk
      let d2 := d ++ chunk
      match DefinitionField.advance fr chunk with
      | .inl fr2 => decode_definition_fields_reader fuel fr2 d2 s2 i2 c2
      | .inr _ => .ok (d2, s2, i2, c2)

/-- `reader::decode_definition`: clear the slot buffer, then capture every
chunk of the definition body read from the stream while advancing the
first-pass states.  Returns the new buffer, stream, counter and CRC. -/
def decode_definition_reader (F : Nat) (s : List Nat) (i c : Nat) :
    Except DecodeError (List Nat × List Nat × Nat × Nat) :=
  match takeRd 5 s with
  | .error e => .error e
  | .ok (chunk, s2) =>
    let i2 := i + 5
    let c2 := compute_crc c chunk
    match Definition.advance chunk with
    | .inl fr => decode_definition_fields_reader F fr chunk s2 i2 c2
    | .inr _ => .ok (chunk, s2, i2, c2)

/-- The record loop of `reader::decode` (`while *i < end`). -/
def decode_records_reader (F fuel : Nat) (s : List Nat) (i endPos c : Nat)
    (defs : Nat → List Nat) (A : AcceptFn) (tr : List SinkCall) :
    Except DecodeError (List Nat × Nat × Nat × List SinkCall) :=
  match fuel with
  | 0 => .error .outOfFuel
  | fuel + 1 =>
    if i < endPos then
      match takeRd 1 s with
      | .error e => .error e
      | .ok (hb, s2) =>
        let i2 := i + 1
        let c2 := compute_crc c hb
        match RecordHeader.advance hb with
        | .error .developerData => .error .developer
        | .ok (lcl, .inl _) =>
          match decode_definition_reader F s2 i2 c2 with
          | .error e => .error e
          | .ok (d, s3, i3, c3) =>
            decode_records_reader F fuel s3 i3 endPos c3 (updf defs lcl d) A tr
        | .ok (lcl, .inr time) =>
          match decode_data_reader F time (defs lcl) s2 i2 c2 A tr with
          | .error e => .error e
          | .ok (s3, i3, c3, tr2) =>
            decode_records_reader F fuel s3 i3 endPos c3 defs A tr2
    else .ok (s, i, c, tr)

/-- `reader::decode` (re-exported as `decode_reader`): parse the document
header while rolling the CRC, run the record loop, then read the two
trailing bytes (not CRC'd) and compare them with the accumulator. -/
def decode_reader (r : List Nat) (A : AcceptFn) :
    Except DecodeError (List SinkCall) :=
  match takeRd 12 r with
  | .error e => .error e
  | .ok (hb, s1) =>
    match DocumentHeader.advance hb with
    | .error e => .error (.header e)
    | .ok (size, isExtended) =>
      let c1 := compute_crc 0 hb
      match (if isExtended then
               (takeRd 2 s1).map fun p => (p.2, 14, compute_crc c1 p.1)
             else .ok (s1, 12, c1) :
             Except DecodeError (List Nat × Nat × Nat)) with
      | .error e => .error e
      | .ok (s2, i2, c2) =>
        let endPos := i2 + size
        match decode_records_reader (r.length + 2) (r.length + 2) s2 i2
            endPos c2 (fun _ => []) A [] with
        | .error e => .error e
        | .ok (s3, _, c3, tr) =>
          match takeRd 2 s3 with
          | .error e => .error e
          | .ok (cb, _) =>
            let found := leVal cb
            if found ≠ c3 then .error (.cyclicRedundancyCheck found c3)
            else .ok tr

/-! ## Structured documents

To reason about "valid FIT documents" (claims about whole-document runs)
we give a structural grammar of record sections, its byte-level
serialization, a well-formedness predicate, and a reference dispatch
semantics (records in document order; inside a record, fields in
descriptor order; inside a field, elements in stream order).  These are
spec-side notions, compared against the drivers by the refinement
theorems below. -/

/-- One 3-byte field descriptor `(field_number, size_in_bytes,
base_type_code)`. -/
structure FieldDef where
  num : Nat
  size : Nat
  base : Nat
deriving DecidableEq

/-- A definition record's body as remembered for a local message slot:
reserved byte, architecture byte, the two global-message bytes, and the
field descriptors. -/
structure DefBody where
  rsv : Nat
  arch : Nat
  g0 : Nat
  g1 : Nat
  fields : List FieldDef
deriving DecidableEq

/-- A record of the record section. -/
inductive Rec
  | defn (lcl : Nat) (body : DefBody)
  | data (lcl : Nat) (time : Option Nat) (payload : List Nat)
deriving DecidableEq

/-- The base-type code table: code → base type, `none` off-table. -/
def kindOfBase : Nat → Option BaseKind
  | 0x00 => some .u8
  | 0x01 => some .i8
  | 0x02 => some .u8
  | 0x83 => some .i16
  | 0x84 => some .u16
  | 0x85 => some .i32
  | 0x86 => some .u32
  | 0x07 => some .u8z
  | 0x88 => some .f32
  | 0x89 => some .f64
  | 0x0A => some .u8z
  | 0x8B => some .u16z
  | 0x8C => some .u32z
  | 0x0D => some .u8
  | 0x8E => some .i64
  | 0x8F => some .u64
  | 0x90 => some .u64z
  | _ => none

/-- Serialized bytes of one field descriptor. -/
def FieldDef.bytes (f : FieldDef) : List Nat := [f.num, f.size, f.base]

/-- Serialized bytes of a definition record's body (everything after the
record header byte). -/
def DefBody.bytes (b : DefBody) : List Nat :=
  b.rsv :: b.arch :: b.g0 :: b.g1 :: b.fields.length ::
    b.fields.flatMap FieldDef.bytes

/-- Serialized bytes of a record, record header byte included.  A normal
data header is the bare local index; a compressed timestamp header sets
bit 7, the local index in bits 5..7 and the offset in bits 0..5; a
definition header sets bit 6. -/
def Rec.bytes : Rec → List Nat
  | .defn lcl body => (64 + lcl) :: body.bytes
  | .data lcl none payload => lcl :: payload
  | .data lcl (some t) payload => (128 + 32 * lcl + t) :: payload

/-- Serialized bytes of a record section. -/
def recsBytes (rs : List Rec) : List Nat := rs.flatMap Rec.bytes

/-- Total payload size declared by a list of field descriptors. -/
def sizeSum (fs : List FieldDef) : Nat :=
  (fs.map FieldDef.size).sum

/-- Well-formed field descriptor: bytes in range, a known base-type code,
and a nonzero size that is a multiple of the base type's width. -/
def FieldDef.wfb (f : FieldDef) : Bool :=
  f.num < 256 && f.size < 256 && 0 < f.size &&
    (match kindOfBase f.base with
     | some k => decide (k.width ∣ f.size)
     | none => false)

/-- Well-formed definition body: bytes in range, at most 255 fields, all
descriptors well-formed. -/
def DefBody.wfb (b : DefBody) : Bool :=
  b.rsv < 256 && b.arch < 256 && b.g0 < 256 && b.g1 < 256 &&
    b.fields.length < 256 && b.fields.all FieldDef.wfb

/-- The definition environment: local slot → most recent definition. -/
abbrev DefEnv := Nat → Option DefBody

/-- Environment update performed by a record. -/
def recUpd (env : DefEnv) : Rec → DefEnv
  | .defn lcl body => updf env lcl (some body)
  | .data _ _ _ => env

/-- Well-formed record relative to the environment.  A data record must
address a previously defined slot and carry exactly the payload its
governing definition declares. -/
def recWFb (env : DefEnv) : Rec → Bool
  | .defn lcl body => lcl < 16 && body.wfb
  | .data lcl time payload =>
    (match time with
     | none => lcl < 16
     | some t => lcl < 4 && t < 32) &&
    (match env lcl with
     | some body => payload.length = sizeSum body.fields
     | none => false) &&
    payload.all (· < 256)

/-- Well-formed record section, threading the environment. -/
def recsWFb (env : DefEnv) : List Rec → Bool
  | [] => true
  | r :: rest => recWFb env r && recsWFb (recUpd env r) rest

/-- Little-endian bytes of a `u16`. -/
def le16 (n : Nat) : List Nat := [n % 256, n / 256 % 256]

/-- Little-endian bytes of a `u32`. -/
def le32 (n : Nat) : List Nat :=
  [n % 256, n / 256 % 256, n / 65536 % 256, n / 16777216 % 256]

/-- A structured FIT document: header fields plus the record section.
The trailing CRC is attached by `Document.bytes`. -/
structure Document where
  extended : Bool
  protocolVersion : Nat
  profile0 : Nat
  profile1 : Nat
  ext0 : Nat
  ext1 : Nat
  records : List Rec
deriving DecidableEq

/-- The document header bytes (12 or 14 of them). -/
def Document.headerBytes (d : Document) : List Nat :=
  ((if d.extended then 14 else 12) :: d.protocolVersion :: d.profile0 ::
      d.profile1 :: le32 (recsBytes d.records).length) ++
    [0x2E, 0x46, 0x49, 0x54] ++
    (if d.extended then [d.ext0, d.ext1] else [])

/-- Header plus record section (everything the CRC covers). -/
def Document.bodyBytes (d : Document) : List Nat :=
  d.headerBytes ++ recsBytes d.records

/-- The full document: body followed by the matching little-endian CRC. -/
def Document.bytes (d : Document) : List Nat :=
  d.bodyBytes ++ le16 (compute_crc 0 d.bodyBytes)

/-- Well-formed document: header bytes in range, record-section length
expressible as a `u32`, and a well-formed record section starting from
the empty environment. -/
def Document.wfb (d : Document) : Bool :=
  d.protocolVersion < 256 && d.profile0 < 256 && d.profile1 < 256 &&
    d.ext0 < 256 && d.ext1 < 256 &&
    (recsBytes d.records).length < 4294967296 &&
    recsWFb (fun _ => none) d.records

/-! ## Reference dispatch semantics -/

/-- Split a byte list into chunks of `w` bytes (the successive array
elements of a field). -/
def chunksW (w : Nat) : List Nat → List (List Nat)
  | [] => []
  | b :: rest =>
    match w with
    | 0 => []
    | w + 1 => (b :: rest).take (w + 1) :: chunksW (w + 1) ((b :: rest).drop (w + 1))
termination_by bs => bs.length
decreasing_by simp; omega

/-- Sink calls produced by one field's elements: each chunk is decoded,
suppressed if it carries the invalid marker, and dispatched through the
base type's `add_*` method — only when the record receiver accepted the
record. -/
def refElems (k : BaseKind) (is_le : Bool) (fnum : Nat) (accept : Bool)
    (chunks : List (List Nat)) : List SinkCall :=
  if accept then
    chunks.filterMap fun ch => (FieldInner.from k ch is_le).map (addFnOf k fnum)
  else []

/-- Sink calls of a data record's fields, in descriptor order, splitting
the payload by declared sizes. -/
def refFields (is_le : Bool) (accept : Bool) :
    List FieldDef → List Nat → List SinkCall
  | [], _ => []
  | f :: fs, payload =>
    (match kindOfBase f.base with
     | some k => refElems k is_le f.num accept (chunksW k.width (payload.take f.size))
     | none => []) ++
      refFields is_le accept fs (payload.drop f.size)

/-- Full trace after one data record governed by `body`: the
`add_record` call, then the time offset (when present and accepted),
then the fields. -/
def refDataBody (A : AcceptFn) (body : DefBody) (time : Option Nat)
    (tr : List SinkCall) (payload : List Nat) : List SinkCall :=
  let is_le : Bool := body.arch = 0
  let global := if body.arch = 0 then leVal [body.g0, body.g1]
                else beVal [body.g0, body.g1]
  let accept := A tr global
  let tr2 := tr ++ [.addRecord global]
  let tr3 := match time, accept with
    | some t, true => tr2 ++ [.addTimeOffset t]
    | _, _ => tr2
  tr3 ++ refFields is_le accept body.fields payload

/-- Full trace after one data record: empty slots contribute nothing
(they are unreachable for well-formed record sections). -/
def refData (A : AcceptFn) (env : DefEnv) (lcl : Nat) (time : Option Nat)
    (tr : List SinkCall) (payload : List Nat) : List SinkCall :=
  match env lcl with
  | none => tr
  | some body => refDataBody A body time tr payload

/-- Full trace after a record section, threading environment and trace. -/
def refRecords (A : AcceptFn) (env : DefEnv) (tr : List SinkCall) :
    List Rec → List SinkCall
  | [] => tr
  | .defn lcl body :: rest =>
    refRecords A (updf env lcl (some body)) tr rest
  | .data lcl time payload :: rest =>
    refRecords A env (refData A env lcl time tr payload) rest

/-- The reference trace of a whole document. -/
def Document.refTrace (d : Document) (A : AcceptFn) : List SinkCall :=
  refRecords A (fun _ => none) [] d.records

/-! ## General lemmas -/

theorem leVal_lt (r : List Nat) (h : ∀ b ∈ r, b < 256) :
    leVal r < 256 ^ r.length := by
  induction r with
  | nil => simp [leVal]
  | cons b rest ih =>
    have hb : b < 256 := h b (by simp)
    have hrest := ih fun x hx => h x (by simp [hx])
    simp only [leVal, List.length_cons, pow_succ]
    have h2 : 256 ^ rest.length * 256 = 256 * 256 ^ rest.length := by ring
    rw [h2]
    omega

theorem rawVal_lt (is_le : Bool) (r : List Nat) (h : ∀ b ∈ r, b < 256) :
    rawVal is_le r < 256 ^ r.length := by
  cases is_le with
  | true => simpa [rawVal] using leVal_lt r h
  | false =>
    have := leVal_lt r.reverse (by simpa using h)
    simpa [rawVal, beVal] using this

theorem leVal_le16 (n : Nat) (h : n < 65536) : leVal (le16 n) = n := by
  simp [le16, leVal]; omega

theorem leVal_le32 (n : Nat) (h : n < 4294967296) : leVal (le32 n) = n := by
  simp [le32, leVal]; omega

theorem getD_take (l : List Nat) (i n d : Nat) (h : i < n) :
    (l.take n).getD i d = l.getD i d := by
  simp [List.getD, List.getElem?_take, h]

/-! ## Claim theorems: record headers -/

/-- Claim C8.  `RecordHeader::advance` on one byte: if bit 7 is set, the
2-bit local index is bits 5..7 and the successor is
`Right((Some(time_offset from bits 0..5), DefinitionAlt))`; otherwise it
errors with `DeveloperData` exactly when bit 5 is set, and else returns
the 4-bit local index from bits 0..4 with `Left(Definition)` when bit 6
is set or `Right((None, DefinitionAlt))` when it is clear. -/
theorem C8_record_header_advance : ∀ b : Nat, b < 256 →
    (RecordHeader.advance [b] =
      (if b.testBit 7 then
        .ok (b / 2 ^ 5 % 2 ^ 2, .inr (some (b % 2 ^ 5)))
      else if b.testBit 5 then .error .developerData
      else if b.testBit 6 then .ok (b % 2 ^ 4, .inl ())
      else .ok (b % 2 ^ 4, .inr none))) ∧
    (RecordHeader.advance [b] = .error .developerData ↔
      (b.testBit 7 = false ∧ b.testBit 5 = true)) := by
  set_option maxRecDepth 4096 in decide

/-- Witness for C8 at the concrete byte `0xAA` (compressed-timestamp
header: local index 1, time offset 10). -/
theorem C8_record_header_advance_witness :
    RecordHeader.advance [0xAA] = .ok (1, .inr (some 10)) := by
  have h := (C8_record_header_advance 0xAA (by decide)).1
  simpa using h

/-- Claim C9.  `DocumentHeader::advance` on 12 bytes fails with
`NotFitData` exactly when bytes 8..12 are not `".FIT"`; with the
signature present it fails with `UnknownHeaderLength n` exactly when byte
0 is `n ∉ {12, 14}`; otherwise it returns the little-endian `u32` at
bytes 4..8 as the data size, with the extended-header successor for
header size 14 and the record-header successor for 12. -/
theorem C9_document_header_advance :
    ∀ b0 b1 b2 b3 b4 b5 b6 b7 b8 b9 b10 b11 : Nat,
    (DocumentHeader.advance [b0, b1, b2, b3, b4, b5, b6, b7, b8, b9, b10, b11]
        = .error .notFitData ↔ [b8, b9, b10, b11] ≠ [0x2E, 0x46, 0x49, 0x54]) ∧
    (∀ n : Nat, [b8, b9, b10, b11] = [0x2E, 0x46, 0x49, 0x54] →
      (DocumentHeader.advance [b0, b1, b2, b3, b4, b5, b6, b7, b8, b9, b10, b11]
          = .error (.unknownHeaderLength n) ↔ b0 = n ∧ n ≠ 12 ∧ n ≠ 14)) ∧
    ([b8, b9, b10, b11] = [0x2E, 0x46, 0x49, 0x54] → b0 = 14 →
      DocumentHeader.advance [b0, b1, b2, b3, b4, b5, b6, b7, b8, b9, b10, b11]
        = .ok (leVal [b4, b5, b6, b7], true)) ∧
    ([b8, b9, b10, b11] = [0x2E, 0x46, 0x49, 0x54] → b0 = 12 →
      DocumentHeader.advance [b0, b1, b2, b3, b4, b5, b6, b7, b8, b9, b10, b11]
        = .ok (leVal [b4, b5, b6, b7], false)) := by
  intro b0 b1 b2 b3 b4 b5 b6 b7 b8 b9 b10 b11
  refine ⟨?_, ?_, ?_, ?_⟩
  · constructor
    · intro h hsig
      simp only [DocumentHeader.advance, List.getD, leVal] at h
      rw [if_neg (by simpa using hsig)] at h
      split at h <;> simp_all
    · intro hsig
      simp only [DocumentHeader.advance, List.getD, leVal]
      rw [if_pos (by simpa using hsig)]
  · intro n hsig
    simp only [DocumentHeader.advance, List.getD, leVal]
    rw [if_neg (by simp_all)]
    constructor
    · intro h
      split at h <;> simp_all
    · rintro ⟨rfl, h12, h14⟩
      split <;> simp_all
  · intro hsig h14
    simp only [DocumentHeader.advance, List.getD, leVal]
    rw [if_neg (by simp_all)]
    subst h14
    rfl
  · intro hsig h12
    simp only [DocumentHeader.advance, List.getD, leVal]
    rw [if_neg (by simp_all)]
    subst h12
    rfl

/-- Witness for C9 at a concrete 12-byte header (size 14, data size
`0x0201`). -/
theorem C9_document_header_advance_witness :
    DocumentHeader.advance [14, 0, 0, 0, 1, 2, 0, 0, 0x2E, 0x46, 0x49, 0x54]
      = .ok (513, true) := by
  have h := (C9_document_header_advance 14 0 0 0 1 2 0 0 0x2E 0x46 0x49
      0x54).2.2.1 (by decide) (by decide)
  simpa [leVal] using h

/-! ## Claim theorems: unknown base-type codes (C4) -/

/-- Counterexample to claim C4.  On the descriptor `(0, 1, 0x03)` —
whose base-type code `0x03` is not in the seventeen-code table —
`DefinitionFieldAlt::advance` does not surface any decode error: it hits
the `unreachable!()` assertion and panics (modelled as `none`; the
kernel's `advance` has no error channel at all through which an error
could be surfaced). -/
theorem C4_counterexample :
    DefinitionFieldAlt.advance ⟨1, true⟩ [0, 1, 0x03] = none := by
  decide

/-- Claim C4 as amended: for every 3-byte field descriptor whose
base-type code is not one of the seventeen codes in the table,
`DefinitionFieldAlt::advance` panics via the `unreachable!()` assertion
(modelled as `none`) instead of surfacing a kernel-level decode error. -/
theorem C4_unknown_base_type_panics (st : DefinitionFieldAlt)
    (f s bt : Nat) (h : kindOfBase bt = none) :
    DefinitionFieldAlt.advance st [f, s, bt] = none := by
  have h2 : ([f, s, bt] : List Nat).getD 2 0 = bt := rfl
  simp only [DefinitionFieldAlt.advance, h2]
  split <;>
    first
      | rfl
      | simp [kindOfBase] at h

/-- Witness for the amended C4 at the off-table code `0x50`. -/
theorem C4_unknown_base_type_panics_witness :
    kindOfBase 0x50 = none ∧
      DefinitionFieldAlt.advance ⟨2, false⟩ [1, 4, 0x50] = none :=
  ⟨by decide, C4_unknown_base_type_panics ⟨2, false⟩ 1 4 0x50 (by decide)⟩

/-! ## Claim theorems: invalid-marker suppression (C2) -/

/-- The invalid marker of a base type, as the raw unsigned reading of its
byte encoding: the maximum value for the signed, normal-unsigned and
float types (for floats, the bit pattern of `fN::MAX`), zero for the `z`
types. -/
def BaseKind.invalidRaw : BaseKind → Nat
  | .u8 => 255
  | .u8z => 0
  | .u16 => 65535
  | .u16z => 0
  | .u32 => 4294967295
  | .u32z => 0
  | .u64 => 18446744073709551615
  | .u64z => 0
  | .i8 => 127
  | .i16 => 32767
  | .i32 => 2147483647
  | .i64 => 9223372036854775807
  | .f32 => 0x7F7FFFFF
  | .f64 => 0x7FEFFFFFFFFFFFFF

/-- The invalid marker as the decoded primitive it would have been
dispatched as. -/
def BaseKind.markerValue : BaseKind → Value
  | .u8 => .natV 255
  | .u8z => .natV 0
  | .u16 => .natV 65535
  | .u16z => .natV 0
  | .u32 => .natV 4294967295
  | .u32z => .natV 0
  | .u64 => .natV 18446744073709551615
  | .u64z => .natV 0
  | .i8 => .intV 127
  | .i16 => .intV 32767
  | .i32 => .intV 2147483647
  | .i64 => .intV 9223372036854775807
  | .f32 => .floatBits 0x7F7FFFFF
  | .f64 => .floatBits 0x7FEFFFFFFFFFFFFF

theorem ifNatV_props (x m : Nat) :
    ((if x ≠ m then some (Value.natV x) else none) = none ↔ x = m) ∧
    (∀ v, (if x ≠ m then some (Value.natV x) else none) = some v →
      v ≠ Value.natV m) := by
  by_cases h : x = m
  · subst h; simp
  · constructor
    · simp [h]
    · intro v hv
      rw [if_pos h] at hv
      rw [← Option.some.inj hv]
      intro hc
      exact h (Value.natV.inj hc)

theorem ifFloatV_props (x m : Nat) :
    ((if x ≠ m then some (Value.floatBits x) else none) = none ↔ x = m) ∧
    (∀ v, (if x ≠ m then some (Value.floatBits x) else none) = some v →
      v ≠ Value.floatBits m) := by
  by_cases h : x = m
  · subst h; simp
  · constructor
    · simp [h]
    · intro v hv
      rw [if_pos h] at hv
      rw [← Option.some.inj hv]
      intro hc
      exact h (Value.floatBits.inj hc)

theorem ifIntV_props (y m : Int) :
    ((if y ≠ m then some (Value.intV y) else none) = none ↔ y = m) ∧
    (∀ v, (if y ≠ m then some (Value.intV y) else none) = some v →
      v ≠ Value.intV m) := by
  by_cases h : y = m
  · subst h; simp
  · constructor
    · simp [h]
    · intro v hv
      rw [if_pos h] at hv
      rw [← Option.some.inj hv]
      intro hc
      exact h (Value.intV.inj hc)

theorem asInt_eq_iff8 (x m : Nat) (hx : x < 256) (hm : m < 128) :
    asInt x 8 = m ↔ x = m := by
  simp only [asInt]; norm_num; split <;> omega

theorem asInt_eq_iff16 (x m : Nat) (hx : x < 65536) (hm : m < 32768) :
    asInt x 16 = m ↔ x = m := by
  simp only [asInt]; norm_num; split <;> omega

theorem asInt_eq_iff32 (x m : Nat) (hx : x < 4294967296) (hm : m < 2147483648) :
    asInt x 32 = m ↔ x = m := by
  simp only [asInt]; norm_num; split <;> omega

theorem asInt_eq_iff64 (x m : Nat) (hx : x < 18446744073709551616)
    (hm : m < 9223372036854775808) : asInt x 64 = m ↔ x = m := by
  simp only [asInt]; norm_num; split <;> omega

/-- Claim C2.  For every base type and field state: an element whose
bytes read (in the state's endianness) as the type's invalid marker makes
`Field::advance` yield `None` — and only such an element does — and any
value `advance` does yield is never the marker value, so the sink (which
both drivers only invoke on `Some` values) never receives a marker. -/
theorem C2_invalid_marker_suppression :
    ∀ (st : FieldSt) (r : List Nat), r.length = st.kind.width →
    (∀ b ∈ r, b < 256) →
    (((Field.advance st r).1 = none) ↔
        rawVal st.is_little_endian r = st.kind.invalidRaw) ∧
    ∀ v, (Field.advance st r).1 = some v → v ≠ st.kind.markerValue := by
  intro st r hlen hb
  have hraw : rawVal st.is_little_endian r < 256 ^ st.kind.width := by
    rw [← hlen]; exact rawVal_lt _ _ hb
  simp only [Field.advance]
  cases hk : st.kind <;>
    simp only [FieldInner.from, BaseKind.invalidRaw, BaseKind.markerValue,
      BaseKind.width, hk] at hraw ⊢
  case u8 => exact ifNatV_props _ _
  case u8z => exact ifNatV_props _ _
  case u16 => exact ifNatV_props _ _
  case u16z => exact ifNatV_props _ _
  case u32 => exact ifNatV_props _ _
  case u32z => exact ifNatV_props _ _
  case u64 => exact ifNatV_props _ _
  case u64z => exact ifNatV_props _ _
  case f32 => exact ifFloatV_props _ _
  case f64 => exact ifFloatV_props _ _
  case i8 =>
    have h := ifIntV_props (asInt (rawVal st.is_little_endian r) 8) 127
    norm_num at hraw
    refine ⟨?_, h.2⟩
    rw [h.1]
    exact asInt_eq_iff8 _ _ hraw (by norm_num)
  case i16 =>
    have h := ifIntV_props (asInt (rawVal st.is_little_endian r) 16) 32767
    norm_num at hraw
    refine ⟨?_, h.2⟩
    rw [h.1]
    exact asInt_eq_iff16 _ _ hraw (by norm_num)
  case i32 =>
    have h := ifIntV_props (asInt (rawVal st.is_little_endian r) 32) 2147483647
    norm_num at hraw
    refine ⟨?_, h.2⟩
    rw [h.1]
    exact asInt_eq_iff32 _ _ hraw (by norm_num)
  case i64 =>
    have h := ifIntV_props (asInt (rawVal st.is_little_endian r) 64)
      9223372036854775807
    norm_num at hraw
    refine ⟨?_, h.2⟩
    rw [h.1]
    exact asInt_eq_iff64 _ _ hraw (by norm_num)

/-- Witness for C2: a little-endian `u16` field carrying the marker
`0xFFFF` is suppressed. -/
theorem C2_invalid_marker_suppression_witness :
    (Field.advance ⟨.u16, 0, 2, true⟩ [255, 255]).1 = none := by
  have h := (C2_invalid_marker_suppression ⟨.u16, 0, 2, true⟩ [255, 255]
      (by decide) (by decide)).1
  exact h.mpr (by decide)

/-! ## Claim theorems: framing (C10, C3) and unset slots (C6) -/

/-- A receiver that accepts every record. -/
def acceptAll : AcceptFn := fun _ _ => true

/-- The minimal empty document (scenario E1): 12-byte header, no
records. -/
def e1doc : Document :=
  { extended := false, protocolVersion := 16, profile0 := 100,
    profile1 := 0, ext0 := 0, ext1 := 0, records := [] }

theorem takeS_eq_ok (n : Nat) (r : List Nat) (i : Nat)
    (p : List Nat × Nat) :
    takeS n r i = .ok p ↔ i + n ≤ r.length ∧ p = ((r.drop i).take n, i + n) := by
  unfold takeS
  split
  · rename_i hle
    simp [hle, eq_comm]
  · rename_i hgt
    simp [hgt]

theorem documentHeader_advance_ok (hb : List Nat) (size : Nat) (ext : Bool)
    (h : DocumentHeader.advance hb = .ok (size, ext)) :
    size = leVal [hb.getD 4 0, hb.getD 5 0, hb.getD 6 0, hb.getD 7 0] ∧
    hb.getD 0 0 = (if ext then 14 else 12) := by
  simp only [DocumentHeader.advance] at h
  split at h
  · simp at h
  · split at h <;> simp_all

/-- Claim C10.  `decode_slice` returns `Ok` only when the slice is
exactly `header_size + data_size + 2` bytes long: the record section is
followed by exactly the two trailing CRC bytes, and any extra bytes make
the decode non-successful. -/
theorem C10_ok_implies_exact_length (r : List Nat) (A : AcceptFn)
    (t : List SinkCall) (h : decode_slice r A = .ok t) :
    r.length = r.getD 0 0 +
      leVal [r.getD 4 0, r.getD 5 0, r.getD 6 0, r.getD 7 0] + 2 := by
  unfold decode_slice at h
  cases h12 : takeS 12 r 0 with
  | error e => rw [h12] at h; exact absurd h (by simp)
  | ok p =>
    simp only [h12] at h
    obtain ⟨hlen12, hp⟩ := (takeS_eq_ok 12 r 0 p).mp h12
    subst hp
    cases hdh : DocumentHeader.advance ((r.drop 0).take 12) with
    | error e => simp only [hdh] at h; exact absurd h (by simp)
    | ok q =>
      obtain ⟨size, isExt⟩ := q
      simp only [hdh] at h
      obtain ⟨hsize, hb0⟩ := documentHeader_advance_ok _ _ _ hdh
      have hg : ∀ k : Nat, k < 12 → ((r.drop 0).take 12).getD k 0 = r.getD k 0 := by
        intro k hk
        rw [List.drop_zero]
        exact getD_take r k 12 0 hk
      rw [hg 4 (by omega), hg 5 (by omega), hg 6 (by omega),
        hg 7 (by omega)] at hsize
      rw [hg 0 (by omega)] at hb0
      cases isExt with
      | false =>
        have hb12 : r.getD 0 0 = 12 := by simpa using hb0
        simp only [Bool.false_eq_true, if_false] at h
        split at h
        · exact absurd h (by simp)
        · split at h
          · exact absurd h (by simp)
          · rename_i hnlt heq2
            rw [hb12, ← hsize]
            omega
      | true =>
        have hb14 : r.getD 0 0 = 14 := by simpa using hb0
        cases h2 : takeS 2 r (0 + 12) with
        | error e =>
          simp only [if_true] at h
          rw [h2] at h
          exact absurd h (by simp)
        | ok p2 =>
          obtain ⟨hlen14, hp2⟩ := (takeS_eq_ok 2 r (0 + 12) p2).mp h2
          subst hp2
          simp only [if_true, h2] at h
          split at h
          · exact absurd h (by simp)
          · split at h
            · exact absurd h (by simp)
            · rename_i hnlt heq2
              rw [hb14, ← hsize]
              omega

/-- Witness for C10 on the minimal empty document. -/
theorem C10_ok_implies_exact_length_witness :
    e1doc.bytes.length = e1doc.bytes.getD 0 0 +
      leVal [e1doc.bytes.getD 4 0, e1doc.bytes.getD 5 0,
        e1doc.bytes.getD 6 0, e1doc.bytes.getD 7 0] + 2 :=
  C10_ok_implies_exact_length e1doc.bytes acceptAll [] (by rfl)

/-- Claim C3, failing input.  Truncating the valid minimal document E1
(14 bytes) to 12 or 13 bytes makes `decode_slice` hit the
`try_into().unwrap()` on the less-than-two-byte trailing slice: a panic
(modelled `panicTryInto`), not a returned error as the specification
requires.  The untruncated document decodes to `Ok` with no sink calls;
truncation to 11 or fewer bytes produces the `EndOfSlice` error at the
eager CRC bounds check, before any record is processed. -/
theorem C3_truncation_panic_at_crc_tail : ∀ A : AcceptFn,
    decode_slice (e1doc.bytes.take 12) A = .error .panicTryInto ∧
    decode_slice (e1doc.bytes.take 13) A = .error .panicTryInto ∧
    decode_slice (e1doc.bytes.take 11) A = .error .endOfSlice ∧
    decode_slice e1doc.bytes A = .ok [] := by
  intro A
  exact ⟨rfl, rfl, rfl, rfl⟩

/-- A document whose record section is a single data-record header byte
(local slot 0) with no preceding definition record, with a correct
trailing CRC. -/
def unsetSlotDoc : List Nat :=
  [12, 16, 100, 0, 1, 0, 0, 0, 0x2E, 0x46, 0x49, 0x54] ++ [0] ++
    le16 (compute_crc 0
      ([12, 16, 100, 0, 1, 0, 0, 0, 0x2E, 0x46, 0x49, 0x54] ++ [0]))

/-- Counterexample to claim C6.  On a data record whose local slot has no
preceding definition, neither driver "dispatches nothing, raises no
error and continues": the reader driver fails with an I/O error (it
`read_exact`s 5 bytes from the slot's empty buffer), and the slice
driver re-reads the document from the stored offset `0` — the document
header — as a definition body (here ending in `EndOfSlice`). -/
theorem C6_counterexample :
    decode_reader unsetSlotDoc acceptAll = .error .ioError ∧
    decode_slice unsetSlotDoc acceptAll = .error .endOfSlice := by
  exact ⟨rfl, rfl⟩

/-! ### Step equations for the fueled loops

Each loop's defining equation under the assumption that fuel remains,
with the recursive occurrences at `fuel - 1`.  These let proofs unfold
one iteration at a time without matching on the fuel's syntactic form. -/

theorem decode_field_slice_unfold (fuel : Nat) (h : 0 < fuel)
    (st : FieldSt) (r : List Nat) (i : Nat) (f : Nat) (accept : Bool)
    (tr : List SinkCall) :
    decode_field_slice fuel st r i f accept tr =
      match takeS st.kind.width r i with
      | .error e => .error e
      | .ok (chunk, i2) =>
        let (value, successor) := Field.advance st chunk
        let tr2 := match accept, value with
          | true, some v => tr ++ [addFnOf st.kind f v]
          | _, _ => tr
        match successor with
        | .inl s => .ok (s, i2, tr2)
        | .inr st2 => decode_field_slice (fuel - 1) st2 r i2 f accept tr2 := by
  cases fuel with
  | zero => omega
  | succ fuel => simp only [decode_field_slice, Nat.succ_sub_one]

theorem decode_data_fields_slice_unfold (F fuel : Nat) (h : 0 < fuel)
    (st : DefinitionFieldAlt) (r : List Nat) (i j : Nat) (accept : Bool)
    (tr : List SinkCall) :
    decode_data_fields_slice F fuel st r i j accept tr =
      match takeS 3 r j with
      | .error e => .error e
      | .ok (chunk, j2) =>
        match DefinitionFieldAlt.advance st chunk with
        | none => .error .panicUnreachable
        | some (f, fieldSt) =>
          match decode_field_slice F fieldSt r i f accept tr with
          | .error e => .error e
          | .ok (.inl st2, i2, tr2) =>
            decode_data_fields_slice F (fuel - 1) st2 r i2 j2 accept tr2
          | .ok (.inr _, i2, tr2) => .ok (i2, tr2) := by
  cases fuel with
  | zero => omega
  | succ fuel => simp only [decode_data_fields_slice, Nat.succ_sub_one]

theorem decode_definition_fields_slice_unfold (fuel : Nat) (h : 0 < fuel)
    (fr : Nat) (r : List Nat) (i : Nat) :
    decode_definition_fields_slice fuel fr r i =
      match takeS 3 r i with
      | .error e => .error e
      | .ok (chunk, i2) =>
        match DefinitionField.advance fr chunk with
        | .inl fr2 => decode_definition_fields_slice (fuel - 1) fr2 r i2
        | .inr _ => .ok i2 := by
  cases fuel with
  | zero => omega
  | succ fuel => simp only [decode_definition_fields_slice, Nat.succ_sub_one]

theorem decode_records_slice_unfold (F fuel : Nat) (h : 0 < fuel)
    (r : List Nat) (i endPos : Nat) (table : Nat → Nat) (A : AcceptFn)
    (tr : List SinkCall) :
    decode_records_slice F fuel r i endPos table A tr =
      (if i < endPos then
        match takeS 1 r i with
        | .error e => .error e
        | .ok (hb, i2) =>
          match RecordHeader.advance hb with
          | .error .developerData => .error .developer
          | .ok (lcl, .inl _) =>
            match decode_definition_slice F r i2 with
            | .error e => .error e
            | .ok i3 =>
              decode_records_slice F (fuel - 1) r i3 endPos
                (updf table lcl i2) A tr
          | .ok (lcl, .inr time) =>
            match decode_data_slice F time r i2 (table lcl) A tr with
            | .error e => .error e
            | .ok (i3, tr2) =>
              decode_records_slice F (fuel - 1) r i3 endPos table A tr2
      else .ok tr) := by
  cases fuel with
  | zero => omega
  | succ fuel => simp only [decode_records_slice, Nat.succ_sub_one]

theorem decode_field_reader_unfold (fuel : Nat) (h : 0 < fuel)
    (st : FieldSt) (s : List Nat) (i c : Nat) (f : Nat) (accept : Bool)
    (tr : List SinkCall) :
    decode_field_reader fuel st s i c f accept tr =
      match takeRd st.kind.width s with
      | .error e => .error e
      | .ok (chunk, s2) =>
        let i2 := i + st.kind.width
        let c2 := compute_crc c chunk
        let (value, successor) := Field.advance st chunk
        let tr2 := match accept, value with
          | true, some v => tr ++ [addFnOf st.kind f v]
          | _, _ => tr
        match successor with
        | .inl su => .ok (su, s2, i2, c2, tr2)
        | .inr st2 => decode_field_reader (fuel - 1) st2 s2 i2 c2 f accept tr2 := by
  cases fuel with
  | zero => omega
  | succ fuel => simp only [decode_field_reader, Nat.succ_sub_one]

theorem decode_data_fields_reader_unfold (F fuel : Nat) (h : 0 < fuel)
    (st : DefinitionFieldAlt) (d s : List Nat) (i c : Nat) (accept : Bool)
    (tr : List SinkCall) :
    decode_data_fields_reader F fuel st d s i c accept tr =
      match takeRd 3 d with
      | .error e => .error e
      | .ok (chunk, d2) =>
        match DefinitionFieldAlt.advance st chunk with
        | none => .error .panicUnreachable
        | some (f, fieldSt) =>
          match decode_field_reader F fieldSt s i c f accept tr with
          | .error e => .error e
          | .ok (.inl st2, s2, i2, c2, tr2) =>
            decode_data_fields_reader F (fuel - 1) st2 d2 s2 i2 c2 accept tr2
          | .ok (.inr _, s2, i2, c2, tr2) => .ok (s2, i2, c2, tr2) := by
  cases fuel with
  | zero => omega
  | succ fuel => simp only [decode_data_fields_reader, Nat.succ_sub_one]

theorem decode_definition_fields_reader_unfold (fuel : Nat) (h : 0 < fuel)
    (fr : Nat) (d s : List Nat) (i c : Nat) :
    decode_definition_fields_reader fuel fr d s i c =
      match takeRd 3 s with
      | .error e => .error e
      | .ok (chunk, s2) =>
        let i2 := i + 3
        let c2 := compute_crc c chunk
        let d2 := d ++ chunk
        match DefinitionField.advance fr chunk with
        | .inl fr2 => decode_definition_fields_reader (fuel - 1) fr2 d2 s2 i2 c2
        | .inr _ => .ok (d2, s2, i2, c2) := by
  cases fuel with
  | zero => omega
  | succ fuel => simp only [decode_definition_fields_reader, Nat.succ_sub_one]

theorem decode_records_reader_unfold (F fuel : Nat) (h : 0 < fuel)
    (s : List Nat) (i endPos c : Nat) (defs : Nat → List Nat)
    (A : AcceptFn) (tr : List SinkCall) :
    decode_records_reader F fuel s i endPos c defs A tr =
      (if i < endPos then
        match takeRd 1 s with
        | .error e => .error e
        | .ok (hb, s2) =>
          let i2 := i + 1
          let c2 := compute_crc c hb
          match RecordHeader.advance hb with
          | .error .developerData => .error .developer
          | .ok (lcl, .inl _) =>
            match decode_definition_reader F s2 i2 c2 with
            | .error e => .error e
            | .ok (d, s3, i3, c3) =>
              decode_records_reader F (fuel - 1) s3 i3 endPos c3
                (updf defs lcl d) A tr
          | .ok (lcl, .inr time) =>
            match decode_data_reader F time (defs lcl) s2 i2 c2 A tr with
            | .error e => .error e
            | .ok (s3, i3, c3, tr2) =>
              decode_records_reader F (fuel - 1) s3 i3 endPos c3 defs A tr2
      else .ok (s, i, c, tr)) := by
  cases fuel with
  | zero => omega
  | succ fuel => simp only [decode_records_reader, Nat.succ_sub_one]

/-- `RecordHeader::advance` on a normal data-record header byte. -/
theorem recordHeader_advance_data (l : Nat) (h : l < 16) :
    RecordHeader.advance [l] = .ok (l, .inr none) := by
  have h7 : l.testBit 7 = false := Nat.testBit_eq_false_of_lt (by omega)
  have h5 : l.testBit 5 = false := Nat.testBit_eq_false_of_lt (by omega)
  have h6 : l.testBit 6 = false := Nat.testBit_eq_false_of_lt (by omega)
  simp only [RecordHeader.advance, List.getD, List.get?, Option.getD, h7,
    h5, h6, Bool.false_eq_true, if_false]
  rw [Nat.mod_eq_of_lt h]

/-- Claim C6 as amended (reader driver): a data record addressing an
unset slot makes `decode_reader` fail with an I/O error — the slot's
zero-initialised buffer is empty, and re-feeding the definition reads 5
bytes from it — rather than silently dispatching nothing.  The statement
covers every document whose record section begins with such a record. -/
theorem C6_unset_slot_reader_io_error (pv p0 p1 : Nat) (sz l : Nat)
    (rest : List Nat) (A : AcceptFn) (h1 : 1 ≤ sz)
    (h2 : sz < 4294967296) (h3 : l < 16) :
    decode_reader
      (([12, pv, p0, p1] ++ le32 sz ++ [0x2E, 0x46, 0x49, 0x54]) ++
        l :: rest) A = .error .ioError := by
  have hlen12 :
      ([12, pv, p0, p1] ++ le32 sz ++ [0x2E, 0x46, 0x49, 0x54] :
        List Nat).length = 12 := by
    simp [le32]
  set hdr : List Nat :=
    [12, pv, p0, p1] ++ le32 sz ++ [0x2E, 0x46, 0x49, 0x54] with hhdr
  set r : List Nat := hdr ++ l :: rest with hr
  have ht : takeRd 12 r = .ok (hdr, l :: rest) := by
    unfold takeRd
    rw [if_pos (by simp [hr, hlen12])]
    rw [hr, ← hlen12, List.take_left, List.drop_left]
  have hadv : DocumentHeader.advance hdr = .ok (sz, false) := by
    rw [hhdr]
    simp [DocumentHeader.advance, le32, List.getD, leVal]
    omega
  have ht1 : takeRd 1 (l :: rest) = .ok ([l], rest) := by
    simp [takeRd]
  have hdata : ∀ i c2 : Nat,
      decode_data_reader (r.length + 2) none [] rest i c2 A [] =
        .error .ioError := fun _ _ => rfl
  unfold decode_reader
  rw [ht]
  simp only [hadv, Bool.false_eq_true, if_false]
  rw [decode_records_reader_unfold _ _ (by omega)]
  rw [if_pos (by omega)]
  rw [ht1]
  simp only [recordHeader_advance_data l h3, hdata]

/-- Witness for the amended C6 at a one-byte record section. -/
theorem C6_unset_slot_reader_io_error_witness :
    decode_reader
      (([12, 16, 100, 0] ++ le32 1 ++ [0x2E, 0x46, 0x49, 0x54]) ++
        0 :: []) acceptAll = .error .ioError :=
  C6_unset_slot_reader_io_error 16 100 0 1 0 [] acceptAll (by decide)
    (by decide) (by decide)

/-! ## Refinement: byte positioning and CRC lemmas -/

/-- The bytes of `r` starting at offset `i` begin with `bs`. -/
def bytesAt (r : List Nat) (i : Nat) (bs : List Nat) : Prop :=
  i + bs.length ≤ r.length ∧ (r.drop i).take bs.length = bs

theorem bytesAt_nil (r : List Nat) (i : Nat) (h : i ≤ r.length) :
    bytesAt r i [] := by
  constructor
  · simpa using h
  · simp

theorem bytesAt_le (r : List Nat) (i : Nat) (bs : List Nat)
    (h : bytesAt r i bs) : i + bs.length ≤ r.length := h.1

theorem bytesAt_append (r : List Nat) (i : Nat) (a b : List Nat) :
    bytesAt r i (a ++ b) ↔ bytesAt r i a ∧ bytesAt r (i + a.length) b := by
  unfold bytesAt
  have hdd : (r.drop i).drop a.length = r.drop (i + a.length) := by
    rw [List.drop_drop, Nat.add_comm]
  constructor
  · rintro ⟨hlen, heq⟩
    simp only [List.length_append] at hlen
    rw [List.length_append, List.take_add] at heq
    have hlen1 : ((r.drop i).take a.length).length = a.length := by
      simp [List.length_take]
      omega
    obtain ⟨h1, h2⟩ := List.append_inj heq hlen1
    rw [hdd] at h2
    exact ⟨⟨by omega, h1⟩, ⟨by omega, h2⟩⟩
  · rintro ⟨⟨hl1, h1⟩, ⟨hl2, h2⟩⟩
    constructor
    · simp only [List.length_append]
      omega
    · rw [List.length_append, List.take_add, h1]
      rw [hdd, h2]

theorem takeS_of_bytesAt (r : List Nat) (i n : Nat) (bs : List Nat)
    (h : bytesAt r i bs) (hn : bs.length = n) :
    takeS n r i = .ok (bs, i + n) := by
  unfold takeS
  obtain ⟨hlen, heq⟩ := h
  rw [if_pos (by omega)]
  rw [← hn, heq]

theorem takeRd_append (n : Nat) (xs ys : List Nat) (h : xs.length = n) :
    takeRd n (xs ++ ys) = .ok (xs, ys) := by
  unfold takeRd
  rw [if_pos (by simp; omega)]
  rw [← h, List.take_left, List.drop_left]

theorem compute_crc_append (init : Nat) (a b : List Nat) :
    compute_crc init (a ++ b) = compute_crc (compute_crc init a) b := by
  simp [compute_crc, List.foldl_append]

/-! ## Refinement: kernel-transition computation lemmas -/

theorem BaseKind.width_pos (k : BaseKind) : 1 ≤ k.width := by
  cases k <;> simp [BaseKind.width]

/-- `RecordHeader::advance` on a definition-record header byte. -/
theorem recordHeader_advance_defn (l : Nat) (h : l < 16) :
    RecordHeader.advance [64 + l] = .ok (l, .inl ()) := by
  have h7 : (64 + l).testBit 7 = false :=
    Nat.testBit_eq_false_of_lt (by omega)
  have h5 : (64 + l).testBit 5 = false := by
    rw [Nat.testBit_to_div_mod]
    simp
    omega
  have h6 : (64 + l).testBit 6 = true := by
    rw [Nat.testBit_to_div_mod]
    simp
    omega
  simp only [RecordHeader.advance, List.getD, List.get?, Option.getD, h7,
    h5, h6, Bool.false_eq_true, if_false, if_true]
  have : (64 + l) % 16 = l := by omega
  rw [this]

/-- `RecordHeader::advance` on a compressed-timestamp header byte. -/
theorem recordHeader_advance_compressed (l t : Nat) (hl : l < 4)
    (ht : t < 32) :
    RecordHeader.advance [128 + 32 * l + t] = .ok (l, .inr (some t)) := by
  have h7 : (128 + 32 * l + t).testBit 7 = true := by
    rw [Nat.testBit_to_div_mod]
    simp
    omega
  simp only [RecordHeader.advance, List.getD, List.get?, Option.getD, h7,
    if_true]
  have h1 : (128 + 32 * l + t) % 32 = t := by omega
  have h2 : (128 + 32 * l + t) / 32 % 4 = l := by omega
  rw [h1, h2]

/-- `DefinitionAlt::advance` on an explicit definition-message head. -/
theorem definitionAlt_advance_eq (rsv arch g0 g1 cnt : Nat) :
    DefinitionAlt.advance [rsv, arch, g0, g1, cnt] =
      ((if arch = 0 then leVal [g0, g1] else beVal [g0, g1]),
        if cnt ≠ 0 then .inl ⟨cnt, decide (arch = 0)⟩ else .inr ()) := by
  by_cases h : arch = 0 <;>
    by_cases hc : cnt = 0 <;>
      simp [DefinitionAlt.advance, List.getD, h, hc]

/-- `Definition::advance` (first pass) on an explicit head. -/
theorem definition_advance_eq (rsv arch g0 g1 cnt : Nat) :
    Definition.advance [rsv, arch, g0, g1, cnt] =
      if cnt ≠ 0 then .inl cnt else .inr () := by
  rfl

/-- `DefinitionFieldAlt::advance` on a descriptor with a known base-type
code builds the corresponding `Field` state. -/
theorem definitionFieldAlt_advance_known (st : DefinitionFieldAlt)
    (f s bt : Nat) (k : BaseKind) (h : kindOfBase bt = some k) :
    DefinitionFieldAlt.advance st [f, s, bt] =
      some (f, ⟨k, st.fields_remaining - 1, s, st.is_little_endian⟩) := by
  unfold kindOfBase at h
  split at h <;>
    first
      | (cases Option.some.inj h; rfl)
      | (exact absurd h (by simp))

/-! ## Refinement: chunk and element lemmas -/

theorem chunksW_nil (w : Nat) : chunksW w [] = [] := by
  unfold chunksW
  rfl

theorem chunksW_cons (w : Nat) (c rest : List Nat) (hw : 1 ≤ w)
    (hc : c.length = w) :
    chunksW w (c ++ rest) = c :: chunksW w rest := by
  cases w with
  | zero => omega
  | succ w =>
    cases c with
    | nil => simp at hc
    | cons x xs =>
      have hl : ((x :: xs) ++ rest : List Nat) = x :: (xs ++ rest) := by simp
      rw [hl, chunksW]
      rw [← hl, ← hc, List.take_left, List.drop_left]

theorem chunksW_exact (w : Nat) (c : List Nat) (hw : 1 ≤ w)
    (hc : c.length = w) : chunksW w c = [c] := by
  have h := chunksW_cons w c [] hw hc
  rw [List.append_nil] at h
  rw [h, chunksW_nil]

theorem refElems_nil (k : BaseKind) (isLE : Bool) (f : Nat)
    (accept : Bool) : refElems k isLE f accept [] = [] := by
  cases accept <;> simp [refElems]

theorem refElems_cons (k : BaseKind) (isLE : Bool) (f : Nat)
    (accept : Bool) (c : List Nat) (cs : List (List Nat)) :
    refElems k isLE f accept (c :: cs) =
      (match accept, FieldInner.from k c isLE with
        | true, some v => [addFnOf k f v]
        | _, _ => []) ++ refElems k isLE f accept cs := by
  cases accept <;> cases hfv : FieldInner.from k c isLE <;>
    simp [refElems, List.filterMap, hfv]

theorem trExt_eq (tr : List SinkCall) (accept : Bool)
    (value : Option Value) (call : Value → SinkCall) :
    (match accept, value with
      | true, some v => tr ++ [call v]
      | _, _ => tr) =
    tr ++ (match accept, value with
      | true, some v => [call v]
      | _, _ => []) := by
  cases accept <;> cases value <;> simp

theorem width_cases (k : BaseKind) :
    k.width = 1 ∨ k.width = 2 ∨ k.width = 4 ∨ k.width = 8 := by
  cases k <;> simp [BaseKind.width]

/-- The element loop of the slice driver consumes exactly `m` elements of
width `W` (the field's declared `size = m * W` bytes), dispatches their
non-suppressed values in stream order, and steps out of the field. -/
theorem decode_field_slice_ok (r : List Nat) (k : BaseKind) (frem : Nat)
    (isLE : Bool) (f : Nat) (accept : Bool) :
    ∀ (m : Nat) (chunk : List Nat) (i fuel : Nat) (tr : List SinkCall),
    1 ≤ m → m * k.width < 256 → chunk.length = m * k.width →
    bytesAt r i chunk → m ≤ fuel →
    decode_field_slice fuel ⟨k, frem, m * k.width, isLE⟩ r i f accept tr =
      .ok ((if frem ≠ 0 then .inl ⟨frem, isLE⟩ else .inr ()),
           i + m * k.width,
           tr ++ refElems k isLE f accept (chunksW k.width chunk)) := by
  intro m
  induction m with
  | zero => intro chunk i fuel tr h1; omega
  | succ m ih =>
    intro chunk i fuel tr h1 h2 hlen hat hfuel
    have hW := BaseKind.width_pos k
    have hw4 := width_cases k
    rw [decode_field_slice_unfold fuel (by omega)]
    cases m with
    | zero =>
      have hlen1 : chunk.length = k.width := by
        rw [hlen]; omega
      rw [show takeS (FieldSt.mk k frem (1 * k.width) isLE).kind.width r i
            = takeS k.width r i from rfl]
      rw [takeS_of_bytesAt r i k.width chunk hat hlen1]
      simp only [Field.advance]
      rw [if_pos (by omega)]
      rw [trExt_eq]
      rw [chunksW_exact k.width chunk hW hlen1]
      rw [refElems_cons, refElems_nil, List.append_nil]
      simp only [show (0 + 1) * k.width = k.width from by omega]
    | succ m =>
      have hmw : (m + 1 + 1) * k.width = k.width + (m + 1) * k.width := by
        ring
      have hc1len : (chunk.take k.width).length = k.width := by
        rw [List.length_take]
        rcases hw4 with h | h | h | h <;> rw [h] at hlen ⊢ <;> omega
      have hsplit : chunk = chunk.take k.width ++ chunk.drop k.width :=
        (List.take_append_drop k.width chunk).symm
      rw [hsplit] at hat
      rw [bytesAt_append, hc1len] at hat
      obtain ⟨hat1, hat2⟩ := hat
      rw [show takeS (FieldSt.mk k frem ((m + 1 + 1) * k.width) isLE).kind.width r i
            = takeS k.width r i from rfl]
      rw [takeS_of_bytesAt r i k.width (chunk.take k.width) hat1 hc1len]
      simp only [Field.advance]
      rw [if_neg (by rcases hw4 with h | h | h | h <;> rw [h] <;> omega)]
      rw [trExt_eq]
      have hws : wsub8 ((m + 1 + 1) * k.width)
          (FieldSt.mk k frem ((m + 1 + 1) * k.width) isLE).kind.width
            = (m + 1) * k.width := by
        show wsub8 ((m + 1 + 1) * k.width) k.width = (m + 1) * k.width
        unfold wsub8
        rcases hw4 with h | h | h | h <;> rw [h] at h2 ⊢ <;> omega
      rw [show (FieldSt.mk k frem ((m + 1 + 1) * k.width) isLE).kind.width
            = k.width from rfl] at hws
      simp only [hws]
      rw [ih (chunk.drop k.width) (i + k.width) (fuel - 1) _
        (by omega)
        (by rcases hw4 with h | h | h | h <;> rw [h] at h2 ⊢ <;> omega)
        (by rw [List.length_drop, hlen]
            rcases hw4 with h | h | h | h <;> rw [h] <;> omega)
        hat2
        (by omega)]
      rw [hsplit]
      rw [chunksW_cons k.width _ _ hW hc1len]
      rw [refElems_cons]
      rw [← hsplit]
      rw [show i + k.width + (m + 1) * k.width = i + (m + 1 + 1) * k.width
        from by rcases hw4 with h | h | h | h <;> rw [h] <;> omega]
      rw [List.append_assoc]

/-! ## Refinement: field-loop lemmas (slice) -/

theorem sizeSum_cons (fd : FieldDef) (fs : List FieldDef) :
    sizeSum (fd :: fs) = fd.size + sizeSum fs := by
  simp [sizeSum]

theorem refFields_nil (isLE accept : Bool) (payload : List Nat) :
    refFields isLE accept [] payload = [] := rfl

theorem refFields_cons (isLE accept : Bool) (fd : FieldDef)
    (fs : List FieldDef) (payload : List Nat) :
    refFields isLE accept (fd :: fs) payload =
      (match kindOfBase fd.base with
        | some k =>
          refElems k isLE fd.num accept (chunksW k.width (payload.take fd.size))
        | none => []) ++
        refFields isLE accept fs (payload.drop fd.size) := rfl

theorem fieldDef_wfb_elim (fd : FieldDef) (h : fd.wfb = true) :
    ∃ k, kindOfBase fd.base = some k ∧ fd.num < 256 ∧ fd.size < 256 ∧
      0 < fd.size ∧ k.width ∣ fd.size := by
  unfold FieldDef.wfb at h
  cases hk : kindOfBase fd.base with
  | none => rw [hk] at h; simp at h
  | some k =>
    rw [hk] at h
    simp only [Bool.and_eq_true, decide_eq_true_eq] at h
    exact ⟨k, rfl, h.1.1.1, h.1.1.2, h.1.2, h.2⟩

/-- The field loop of the slice driver's data pass: reads the remaining
3-byte descriptors at the d-cursor, drives each field's element loop at
the data tip, and stops after the last field having consumed exactly the
payload. -/
theorem decode_data_fields_slice_ok (r : List Nat) (isLE : Bool)
    (accept : Bool) (F : Nat) :
    ∀ (fs : List FieldDef) (payload : List Nat) (i j fuel : Nat)
      (tr : List SinkCall),
    fs ≠ [] →
    fs.all FieldDef.wfb = true →
    payload.length = sizeSum fs →
    bytesAt r j (fs.flatMap FieldDef.bytes) →
    bytesAt r i payload →
    fs.length ≤ fuel →
    payload.length ≤ F →
    decode_data_fields_slice F fuel ⟨fs.length, isLE⟩ r i j accept tr =
      .ok (i + payload.length, tr ++ refFields isLE accept fs payload) := by
  intro fs
  induction fs with
  | nil => intro payload i j fuel tr hne; exact absurd rfl hne
  | cons fd fs ih =>
    intro payload i j fuel tr hne hwf hplen hatj hati hfuel hF
    simp only [List.all_cons, Bool.and_eq_true] at hwf
    obtain ⟨k, hk, hnum, hsz, hszpos, hdvd⟩ := fieldDef_wfb_elim fd hwf.1
    have hW := BaseKind.width_pos k
    obtain ⟨m, hm⟩ := hdvd
    have hm1 : 1 ≤ m := by
      rcases Nat.eq_zero_or_pos m with h0 | h
      · subst h0; simp at hm; omega
      · omega
    have hmul : fd.size = m * k.width := by rw [hm]; ring
    have hmW : m ≤ m * k.width := by
      calc m = m * 1 := by omega
      _ ≤ m * k.width := Nat.mul_le_mul_left m hW
    rw [sizeSum_cons] at hplen
    have hszle : fd.size ≤ payload.length := by omega
    rw [decode_data_fields_slice_unfold F fuel
      (by simp only [List.length_cons] at hfuel; omega)]
    have hflat : (fd :: fs).flatMap FieldDef.bytes =
        [fd.num, fd.size, fd.base] ++ fs.flatMap FieldDef.bytes := by
      simp [FieldDef.bytes]
    rw [hflat, bytesAt_append] at hatj
    obtain ⟨hatj1, hatj2⟩ := hatj
    have hsplitp : payload = payload.take fd.size ++ payload.drop fd.size :=
      (List.take_append_drop fd.size payload).symm
    rw [hsplitp, bytesAt_append] at hati
    obtain ⟨hati1, hati2⟩ := hati
    have htlen : (payload.take fd.size).length = fd.size := by
      rw [List.length_take]; omega
    rw [htlen] at hati2
    have hadv := definitionFieldAlt_advance_known ⟨(fd :: fs).length, isLE⟩
      fd.num fd.size fd.base k hk
    have hfr : ((⟨(fd :: fs).length, isLE⟩ :
        DefinitionFieldAlt).fields_remaining) - 1 = fs.length := by
      simp
    rw [hfr] at hadv
    have hfe := decode_field_slice_ok r k fs.length isLE fd.num accept m
      (payload.take fd.size) i F tr hm1 (by omega)
      (by rw [htlen, hmul]) hati1 (by omega)
    rw [← hmul] at hfe
    simp only [takeS_of_bytesAt r j 3 [fd.num, fd.size, fd.base] hatj1
      (by simp), hadv, hfe]
    cases fs with
    | nil =>
      rw [if_neg (show ¬(([] : List FieldDef).length ≠ 0) from by simp)]
      simp only []
      simp only [refFields_cons, hk, refFields_nil, List.append_nil]
      rw [show i + fd.size = i + payload.length from by
        simp [sizeSum] at hplen; omega]
    | cons f2 fs2 =>
      rw [if_pos (show (f2 :: fs2).length ≠ 0 from by simp)]
      simp only []
      have hfuel2 : (f2 :: fs2).length ≤ fuel - 1 := by
        simp only [List.length_cons] at hfuel ⊢
        omega
      have hdlen : (payload.drop fd.size).length = sizeSum (f2 :: fs2) := by
        rw [List.length_drop]
        omega
      have hdF : (payload.drop fd.size).length ≤ F := by
        rw [List.length_drop]
        omega
      rw [ih (payload.drop fd.size) (i + fd.size) (j + 3) (fuel - 1)
        (tr ++ refElems k isLE fd.num accept
          (chunksW k.width (payload.take fd.size)))
        (by simp) hwf.2 hdlen (by simpa using hatj2) hati2 hfuel2 hdF]
      simp only [refFields_cons, hk]
      rw [show i + fd.size + (payload.drop fd.size).length
            = i + payload.length from by rw [List.length_drop]; omega]
      rw [List.append_assoc]

/-! ## Refinement: data- and definition-record lemmas (slice) -/

theorem flatMap_bytes_length (fs : List FieldDef) :
    (fs.flatMap FieldDef.bytes).length = 3 * fs.length := by
  induction fs with
  | nil => simp
  | cons f fs ih => simp [FieldDef.bytes, ih]; omega

theorem defBody_wfb_elim (b : DefBody) (h : b.wfb = true) :
    b.rsv < 256 ∧ b.arch < 256 ∧ b.g0 < 256 ∧ b.g1 < 256 ∧
      b.fields.length < 256 ∧ b.fields.all FieldDef.wfb = true := by
  unfold DefBody.wfb at h
  simp only [Bool.and_eq_true, decide_eq_true_eq] at h
  exact ⟨h.1.1.1.1.1, h.1.1.1.1.2, h.1.1.1.2, h.1.1.2, h.1.2, h.2⟩

theorem defBody_bytes_split (b : DefBody) :
    b.bytes = [b.rsv, b.arch, b.g0, b.g1, b.fields.length] ++
      b.fields.flatMap FieldDef.bytes := by
  simp [DefBody.bytes]

/-- `slice::decode_data`: re-feeds the stored definition at d-cursor `j`,
reads the payload at the data tip `i`, and produces exactly the
reference trace of the record. -/
theorem decode_data_slice_ok (r : List Nat) (body : DefBody)
    (time : Option Nat) (payload : List Nat) (i j F : Nat) (A : AcceptFn)
    (tr : List SinkCall)
    (hwf : body.wfb = true)
    (hatj : bytesAt r j body.bytes)
    (hati : bytesAt r i payload)
    (hplen : payload.length = sizeSum body.fields)
    (hF : payload.length ≤ F)
    (hFf : body.fields.length ≤ F) :
    decode_data_slice F time r i j A tr =
      .ok (i + payload.length, refDataBody A body time tr payload) := by
  obtain ⟨hrsv, harch, hg0, hg1, hflen, hfall⟩ := defBody_wfb_elim body hwf
  rw [defBody_bytes_split, bytesAt_append] at hatj
  obtain ⟨hatj1, hatj2⟩ := hatj
  unfold decode_data_slice
  rw [takeS_of_bytesAt r j 5 _ hatj1 (by simp)]
  simp only [definitionAlt_advance_eq]
  unfold refDataBody
  by_cases hcnt : body.fields = []
  · rw [if_neg (by simp [hcnt])]
    simp only []
    rw [hcnt] at hplen
    simp only [sizeSum, List.map_nil, List.sum_nil] at hplen
    rw [hplen]
    simp only [hcnt, refFields_nil, List.append_nil, Nat.add_zero]
  · rw [if_pos (by simp [hcnt])]
    simp only []
    rw [decode_data_fields_slice_ok r (decide (body.arch = 0))
      (A tr (if body.arch = 0 then leVal [body.g0, body.g1]
             else beVal [body.g0, body.g1]))
      F body.fields payload i (j + 5) F _ hcnt hfall hplen
      (by simpa using hatj2) hati hFf hF]

theorem takeS_ok_of_le (n : Nat) (r : List Nat) (i : Nat)
    (h : i + n ≤ r.length) :
    takeS n r i = .ok ((r.drop i).take n, i + n) := by
  unfold takeS
  rw [if_pos h]

theorem defBody_bytes_length (b : DefBody) :
    b.bytes.length = 5 + 3 * b.fields.length := by
  rw [defBody_bytes_split, List.length_append, flatMap_bytes_length]
  simp

/-- The first-pass descriptor loop of `slice::decode_definition` skips
`3 * n` bytes. -/
theorem decode_definition_fields_slice_ok (r : List Nat) :
    ∀ (n i fuel : Nat), 1 ≤ n → i + 3 * n ≤ r.length → n ≤ fuel →
    decode_definition_fields_slice fuel n r i = .ok (i + 3 * n) := by
  intro n
  induction n with
  | zero => intro i fuel h1; omega
  | succ n ih =>
    intro i fuel h1 hle hfuel
    rw [decode_definition_fields_slice_unfold fuel (by omega)]
    rw [takeS_ok_of_le 3 r i (by omega)]
    simp only [DefinitionField.advance, Nat.add_sub_cancel]
    cases n with
    | zero =>
      rw [show i + 3 * 1 = i + 3 from by omega]
      rw [if_neg (by simp)]
    | succ n2 =>
      rw [if_pos (by simp)]
      simp only []
      rw [ih (i + 3) (fuel - 1) (by omega) (by omega) (by omega)]
      rw [show i + 3 + 3 * (n2 + 1) = i + 3 * (n2 + 1 + 1) from by omega]

/-- `slice::decode_definition` (first pass) skips the whole definition
body. -/
theorem decode_definition_slice_ok (r : List Nat) (body : DefBody)
    (i F : Nat) (hat : bytesAt r i body.bytes)
    (hF : body.fields.length ≤ F) :
    decode_definition_slice F r i = .ok (i + body.bytes.length) := by
  have hsplit := defBody_bytes_split body
  rw [hsplit, bytesAt_append] at hat
  obtain ⟨h1, h2⟩ := hat
  have hflatlen := flatMap_bytes_length body.fields
  have hblen := defBody_bytes_length body
  have h2len := bytesAt_le _ _ _ h2
  simp only [List.length_cons, List.length_nil] at h1 h2 h2len
  unfold decode_definition_slice
  rw [takeS_of_bytesAt r i 5 _ h1 (by simp)]
  simp only []
  rw [definition_advance_eq]
  by_cases hcnt : body.fields.length = 0
  · rw [if_neg (by omega)]
    simp only []
    rw [show i + 5 = i + body.bytes.length from by omega]
  · rw [if_pos (by omega)]
    simp only []
    rw [decode_definition_fields_slice_ok r body.fields.length (i + 5) F
      (by omega) (by omega) hF]
    rw [show i + 5 + 3 * body.fields.length = i + body.bytes.length from
      by omega]

/-! ## Refinement: the slice record loop -/

/-- Invariant tying the slice driver's offset table to the definition
environment: every defined slot's stored offset points at that
definition's body bytes within the document. -/
def tableInv (r : List Nat) (table : Nat → Nat) (env : DefEnv) : Prop :=
  ∀ l body, env l = some body →
    bytesAt r (table l) body.bytes ∧ body.wfb = true

/-- The record-header byte of a serialized data record. -/
def dataHeaderByte (lcl : Nat) (time : Option Nat) : Nat :=
  match time with
  | none => lcl
  | some t => 128 + 32 * lcl + t

theorem recBytes_length_pos (rec : Rec) : 1 ≤ rec.bytes.length := by
  cases rec with
  | defn lcl body => simp [Rec.bytes]
  | data lcl time payload => cases time <;> simp [Rec.bytes]

/-- The record loop of `slice::decode` on a well-formed serialized
record section produces exactly the reference trace. -/
theorem decode_records_slice_ok (r : List Nat) (A : AcceptFn) (F : Nat)
    (hF : r.length + 1 ≤ F) :
    ∀ (rs : List Rec) (env : DefEnv) (table : Nat → Nat)
      (i fuel : Nat) (tr : List SinkCall),
    recsWFb env rs = true →
    tableInv r table env →
    bytesAt r i (recsBytes rs) →
    rs.length < fuel →
    decode_records_slice F fuel r i (i + (recsBytes rs).length) table A tr =
      .ok (refRecords A env tr rs) := by
  intro rs
  induction rs with
  | nil =>
    intro env table i fuel tr hwf hinv hat hfuel
    rw [decode_records_slice_unfold F fuel (by omega)]
    rw [if_neg (by simp [recsBytes])]
    rfl
  | cons rec rest ih =>
    intro env table i fuel tr hwf hinv hat hfuel
    simp only [recsWFb, Bool.and_eq_true] at hwf
    obtain ⟨hwf1, hwf2⟩ := hwf
    have hrecs : recsBytes (rec :: rest) = rec.bytes ++ recsBytes rest := by
      simp [recsBytes]
    rw [hrecs] at hat ⊢
    rw [bytesAt_append] at hat
    obtain ⟨hat1, hat2⟩ := hat
    have hrl := recBytes_length_pos rec
    rw [decode_records_slice_unfold F fuel (by omega)]
    rw [if_pos (by simp [List.length_append]; omega)]
    cases rec with
    | defn lcl body =>
      simp only [recWFb, Bool.and_eq_true, decide_eq_true_eq] at hwf1
      obtain ⟨hl16, hbwf⟩ := hwf1
      have hbytes : (Rec.defn lcl body).bytes = (64 + lcl) :: body.bytes := by
        simp [Rec.bytes]
      rw [hbytes] at hat1
      have hat1h : bytesAt r i [64 + lcl] ∧ bytesAt r (i + 1) body.bytes := by
        have := (bytesAt_append r i [64 + lcl] body.bytes).mp (by simpa using hat1)
        simpa using this
      rw [takeS_of_bytesAt r i 1 [64 + lcl] hat1h.1 (by simp)]
      simp only [recordHeader_advance_defn lcl hl16]
      have hFf : body.fields.length ≤ F := by
        have := bytesAt_le _ _ _ hat1h.2
        have := defBody_bytes_length body
        omega
      rw [decode_definition_slice_ok r body (i + 1) F hat1h.2 hFf]
      simp only []
      have htinv : tableInv r (updf table lcl (i + 1))
          (updf env lcl (some body)) := by
        intro l b hlb
        unfold updf at hlb ⊢
        by_cases hle : l = lcl
        · rw [if_pos hle] at hlb ⊢
          cases Option.some.inj hlb
          exact ⟨hat1h.2, hbwf⟩
        · rw [if_neg hle] at hlb ⊢
          exact hinv l b hlb
      have hlen1 : i + 1 + body.bytes.length = i + (Rec.defn lcl body).bytes.length := by
        rw [hbytes]
        simp
        omega
      rw [hlen1]
      have := ih (updf env lcl (some body)) (updf table lcl (i + 1))
        (i + (Rec.defn lcl body).bytes.length) (fuel - 1) tr hwf2 htinv hat2
        (by simp at hfuel; omega)
      rw [show i + (Rec.defn lcl body).bytes.length +
            (recsBytes rest).length
          = i + ((Rec.defn lcl body).bytes ++ recsBytes rest).length from
        by rw [List.length_append]; omega]  at this
      rw [this]
      simp [refRecords, recUpd]
    | data lcl time payload =>
      simp only [recWFb, Bool.and_eq_true] at hwf1
      obtain ⟨⟨hhead, henv⟩, hpb⟩ := hwf1
      have henv2 : ∃ body, env lcl = some body ∧
          payload.length = sizeSum body.fields := by
        rcases hb : env lcl with _ | b
        · rw [hb] at henv; simp at henv
        · rw [hb] at henv
          simp only [decide_eq_true_eq] at henv
          exact ⟨b, rfl, henv⟩
      obtain ⟨body, hbody, hplen2⟩ := henv2
      · have hinvl := hinv lcl body hbody
        have hbytes : (Rec.data lcl time payload).bytes =
            dataHeaderByte lcl time :: payload := by
          cases time <;> simp [Rec.bytes, dataHeaderByte]
        rw [hbytes] at hat1
        have hat1h : bytesAt r i [dataHeaderByte lcl time] ∧
            bytesAt r (i + 1) payload := by
          have := (bytesAt_append r i [dataHeaderByte lcl time] payload).mp
            (by simpa using hat1)
          simpa using this
        rw [takeS_of_bytesAt r i 1 _ hat1h.1 (by simp)]
        have hadvh : RecordHeader.advance [dataHeaderByte lcl time]
            = .ok (lcl, .inr time) := by
          unfold dataHeaderByte
          cases time with
          | none =>
            simp only [decide_eq_true_eq] at hhead
            exact recordHeader_advance_data lcl hhead
          | some t =>
            simp only [Bool.and_eq_true, decide_eq_true_eq] at hhead
            exact recordHeader_advance_compressed lcl t hhead.1 hhead.2
        simp only [hadvh]
        have hdata := decode_data_slice_ok r body time payload (i + 1)
          (table lcl) F A tr hinvl.2 hinvl.1 hat1h.2 hplen2
          (by have := bytesAt_le _ _ _ hat1h.2; omega)
          (by have := bytesAt_le _ _ _ hinvl.1
              have := defBody_bytes_length body
              omega)
        simp only [hdata]
        have hlen1 : i + 1 + payload.length =
            i + (Rec.data lcl time payload).bytes.length := by
          rw [hbytes]
          simp
          omega
        rw [hlen1]
        have := ih env table (i + (Rec.data lcl time payload).bytes.length)
          (fuel - 1) (refDataBody A body time tr payload) hwf2 hinv hat2
          (by simp at hfuel; omega)
        rw [show i + (Rec.data lcl time payload).bytes.length +
              (recsBytes rest).length
            = i + ((Rec.data lcl time payload).bytes ++
                recsBytes rest).length from by rw [List.length_append]; omega] at this
        rw [this]
        simp [refRecords, recUpd, refData, hbody]

/-! ## Refinement: top-level slice decode -/

theorem bytesAt_refl (r : List Nat) : bytesAt r 0 r := by
  constructor <;> simp

theorem recs_length_le (rs : List Rec) :
    rs.length ≤ (recsBytes rs).length := by
  induction rs with
  | nil => simp
  | cons rec rest ih =>
    have := recBytes_length_pos rec
    simp only [recsBytes, List.flatMap_cons, List.length_append,
      List.length_cons]
    simp only [recsBytes] at ih
    omega

theorem document_wfb_elim (d : Document) (h : d.wfb = true) :
    d.protocolVersion < 256 ∧ d.profile0 < 256 ∧ d.profile1 < 256 ∧
      d.ext0 < 256 ∧ d.ext1 < 256 ∧
      (recsBytes d.records).length < 4294967296 ∧
      recsWFb (fun _ => none) d.records = true := by
  unfold Document.wfb at h
  simp only [Bool.and_eq_true, decide_eq_true_eq] at h
  exact ⟨h.1.1.1.1.1.1, h.1.1.1.1.1.2, h.1.1.1.1.2, h.1.1.1.2, h.1.1.2,
    h.1.2, h.2⟩

theorem documentHeader_advance12 (pv p0 p1 sz : Nat)
    (hsz : sz < 4294967296) :
    DocumentHeader.advance
      ([12, pv, p0, p1] ++ le32 sz ++ [0x2E, 0x46, 0x49, 0x54]) =
      .ok (sz, false) := by
  simp [DocumentHeader.advance, le32, List.getD, leVal]
  omega

theorem documentHeader_advance14 (pv p0 p1 sz : Nat)
    (hsz : sz < 4294967296) :
    DocumentHeader.advance
      ([14, pv, p0, p1] ++ le32 sz ++ [0x2E, 0x46, 0x49, 0x54]) =
      .ok (sz, true) := by
  simp [DocumentHeader.advance, le32, List.getD, leVal]
  omega

theorem bytesAt_prefix (pre post : List Nat) :
    bytesAt (pre ++ post) 0 pre := by
  constructor
  · simp
  · rw [List.drop_zero, List.take_left]

theorem bytesAt_middle (pre mid post : List Nat) :
    bytesAt (pre ++ mid ++ post) pre.length mid := by
  constructor
  · simp [List.length_append]
  · rw [List.append_assoc, List.drop_left, List.take_left]

theorem tableInv_init (r : List Nat) (table : Nat → Nat) :
    tableInv r table (fun _ => none) := by
  intro l b h
  exact absurd h (by simp)

/-- `slice::decode` on a serialized well-formed document with two
arbitrary trailing bytes: the CRC gate decides everything, and on a
match the decode returns exactly the reference trace. -/
theorem decode_slice_eq (d : Document) (t0 t1 : Nat) (A : AcceptFn)
    (hwf : d.wfb = true) :
    decode_slice (d.bodyBytes ++ [t0, t1]) A =
      if leVal [t0, t1] ≠ compute_crc 0 d.bodyBytes then
        .error (.cyclicRedundancyCheck (leVal [t0, t1])
          (compute_crc 0 d.bodyBytes))
      else .ok (d.refTrace A) := by
  obtain ⟨hpv, hp0, hp1, he0, he1, hszlt, hrswf⟩ := document_wfb_elim d hwf
  have hhdrlen : d.headerBytes.length = if d.extended then 14 else 12 := by
    unfold Document.headerBytes
    cases d.extended <;> simp [le32]
  have hbodylen : d.bodyBytes.length =
      d.headerBytes.length + (recsBytes d.records).length := by
    unfold Document.bodyBytes
    simp
  have hrlen : (d.bodyBytes ++ [t0, t1]).length = d.bodyBytes.length + 2 := by
    simp
  have hrsl := recs_length_le d.records
  cases hext : d.extended with
  | false =>
    have hpre : d.headerBytes =
        [12, d.protocolVersion, d.profile0, d.profile1] ++
          le32 (recsBytes d.records).length ++ [0x2E, 0x46, 0x49, 0x54] := by
      unfold Document.headerBytes
      rw [hext]
      simp
    have hr : d.bodyBytes ++ [t0, t1] =
        d.headerBytes ++ (recsBytes d.records ++ [t0, t1]) := by
      unfold Document.bodyBytes
      simp
    rw [hext] at hhdrlen
    simp at hhdrlen
    have hsplitr := bytesAt_refl (d.bodyBytes ++ [t0, t1])
    rw [hr, bytesAt_append, bytesAt_append, hhdrlen] at hsplitr
    obtain ⟨hsr1, hsr2, hsr3⟩ := hsplitr
    rw [← hr] at hsr1 hsr2 hsr3
    unfold decode_slice
    rw [takeS_of_bytesAt _ 0 12 d.headerBytes hsr1 hhdrlen]
    simp only [hpre, documentHeader_advance12 _ _ _ _ hszlt]
    simp only [← hpre, Bool.false_eq_true, if_false]
    rw [if_neg (by rw [hrlen, hbodylen, hhdrlen]; omega)]
    rw [if_neg (by rw [hrlen, hbodylen, hhdrlen]; omega)]
    have hdrop : ((d.bodyBytes ++ [t0, t1]).drop (0 + 12 +
        (recsBytes d.records).length)).take 2 = [t0, t1] := by
      rw [show 0 + 12 + (recsBytes d.records).length = d.bodyBytes.length
        from by omega]
      rw [List.drop_left]
      simp
    have htake : (d.bodyBytes ++ [t0, t1]).take (0 + 12 +
        (recsBytes d.records).length) = d.bodyBytes := by
      rw [show 0 + 12 + (recsBytes d.records).length = d.bodyBytes.length
        from by omega]
      rw [List.take_left]
    rw [hdrop, htake]
    by_cases hcrc : leVal [t0, t1] ≠ compute_crc 0 d.bodyBytes
    · rw [if_pos hcrc, if_pos hcrc]
    · rw [if_neg hcrc, if_neg hcrc]
      rw [decode_records_slice_ok (d.bodyBytes ++ [t0, t1]) A _
        (by omega) d.records (fun _ => none) (fun _ => 0) (0 + 12) _ []
        hrswf (tableInv_init _ _) (by simpa using hsr2)
        (by rw [hrlen, hbodylen, hhdrlen]; omega)]
      rfl
  | true =>
    have hpre : d.headerBytes =
        ([14, d.protocolVersion, d.profile0, d.profile1] ++
          le32 (recsBytes d.records).length ++ [0x2E, 0x46, 0x49, 0x54]) ++
          [d.ext0, d.ext1] := by
      unfold Document.headerBytes
      rw [hext]
      simp
    have hr : d.bodyBytes ++ [t0, t1] =
        ([14, d.protocolVersion, d.profile0, d.profile1] ++
            le32 (recsBytes d.records).length ++ [0x2E, 0x46, 0x49, 0x54]) ++
          ([d.ext0, d.ext1] ++ (recsBytes d.records ++ [t0, t1])) := by
      unfold Document.bodyBytes
      rw [hpre]
      simp
    rw [hext] at hhdrlen
    simp at hhdrlen
    have hp12len : ([14, d.protocolVersion, d.profile0, d.profile1] ++
        le32 (recsBytes d.records).length ++
        [0x2E, 0x46, 0x49, 0x54] : List Nat).length = 12 := by
      simp [le32]
    have hsr1 : bytesAt (d.bodyBytes ++ [t0, t1]) 0
        ([14, d.protocolVersion, d.profile0, d.profile1] ++
          le32 (recsBytes d.records).length ++ [0x2E, 0x46, 0x49, 0x54]) := by
      rw [hr]
      exact bytesAt_prefix _ _
    have hsr2a : bytesAt (d.bodyBytes ++ [t0, t1]) (0 + 12)
        [d.ext0, d.ext1] := by
      rw [hr, ← List.append_assoc]
      have := bytesAt_middle
        ([14, d.protocolVersion, d.profile0, d.profile1] ++
          le32 (recsBytes d.records).length ++ [0x2E, 0x46, 0x49, 0x54])
        [d.ext0, d.ext1] (recsBytes d.records ++ [t0, t1])
      rw [hp12len] at this
      simpa using this
    have hsr2b : bytesAt (d.bodyBytes ++ [t0, t1]) (0 + 12 + 2)
        (recsBytes d.records) := by
      have heq : d.bodyBytes ++ [t0, t1] =
          (([14, d.protocolVersion, d.profile0, d.profile1] ++
            le32 (recsBytes d.records).length ++
            [0x2E, 0x46, 0x49, 0x54]) ++ [d.ext0, d.ext1]) ++
            recsBytes d.records ++ [t0, t1] := by
        rw [hr]
        simp
      rw [heq]
      have := bytesAt_middle
        (([14, d.protocolVersion, d.profile0, d.profile1] ++
          le32 (recsBytes d.records).length ++
          [0x2E, 0x46, 0x49, 0x54]) ++ [d.ext0, d.ext1])
        (recsBytes d.records) [t0, t1]
      rw [List.length_append, hp12len] at this
      simpa using this
    unfold decode_slice
    rw [takeS_of_bytesAt _ 0 12 _ hsr1 hp12len]
    simp only [documentHeader_advance14 _ _ _ _ hszlt, if_true]
    rw [takeS_of_bytesAt _ (0 + 12) 2 [d.ext0, d.ext1] hsr2a (by simp)]
    simp only []
    rw [if_neg (by rw [hrlen, hbodylen, hhdrlen]; omega)]
    rw [if_neg (by rw [hrlen, hbodylen, hhdrlen]; omega)]
    have hdrop : ((d.bodyBytes ++ [t0, t1]).drop (0 + 12 + 2 +
        (recsBytes d.records).length)).take 2 = [t0, t1] := by
      rw [show 0 + 12 + 2 + (recsBytes d.records).length = d.bodyBytes.length
        from by omega]
      rw [List.drop_left]
      simp
    have htake : (d.bodyBytes ++ [t0, t1]).take (0 + 12 + 2 +
        (recsBytes d.records).length) = d.bodyBytes := by
      rw [show 0 + 12 + 2 + (recsBytes d.records).length = d.bodyBytes.length
        from by omega]
      rw [List.take_left]
    rw [hdrop, htake]
    by_cases hcrc : leVal [t0, t1] ≠ compute_crc 0 d.bodyBytes
    · rw [if_pos hcrc, if_pos hcrc]
    · rw [if_neg hcrc, if_neg hcrc]
      rw [decode_records_slice_ok (d.bodyBytes ++ [t0, t1]) A _
        (by omega) d.records (fun _ => none) (fun _ => 0) (0 + 12 + 2) _ []
        hrswf (tableInv_init _ _) (by simpa using hsr2b)
        (by rw [hrlen, hbodylen, hhdrlen]; omega)]
      rfl

/-! ## Refinement: reader-side loops -/

/-- The element loop of the reader driver: like the slice version, but
consuming the stream and rolling the CRC over exactly the field bytes. -/
theorem decode_field_reader_ok (k : BaseKind) (frem : Nat) (isLE : Bool)
    (f : Nat) (accept : Bool) :
    ∀ (m : Nat) (chunk srest : List Nat) (i c fuel : Nat)
      (tr : List SinkCall),
    1 ≤ m → m * k.width < 256 → chunk.length = m * k.width → m ≤ fuel →
    decode_field_reader fuel ⟨k, frem, m * k.width, isLE⟩ (chunk ++ srest)
        i c f accept tr =
      .ok ((if frem ≠ 0 then .inl ⟨frem, isLE⟩ else .inr ()), srest,
           i + m * k.width, compute_crc c chunk,
           tr ++ refElems k isLE f accept (chunksW k.width chunk)) := by
  intro m
  induction m with
  | zero => intro chunk srest i c fuel tr h1; omega
  | succ m ih =>
    intro chunk srest i c fuel tr h1 h2 hlen hfuel
    have hW := BaseKind.width_pos k
    have hw4 := width_cases k
    rw [decode_field_reader_unfold fuel (by omega)]
    cases m with
    | zero =>
      have hlen1 : chunk.length = k.width := by
        rw [hlen]; omega
      rw [show takeRd (FieldSt.mk k frem (1 * k.width) isLE).kind.width
            (chunk ++ srest) = takeRd k.width (chunk ++ srest) from rfl]
      rw [takeRd_append k.width chunk srest hlen1]
      simp only [Field.advance]
      rw [if_pos (by omega)]
      rw [trExt_eq]
      rw [chunksW_exact k.width chunk hW hlen1]
      rw [refElems_cons, refElems_nil, List.append_nil]
      simp only [show (0 + 1) * k.width = k.width from by omega]
    | succ m =>
      have hc1len : (chunk.take k.width).length = k.width := by
        rw [List.length_take]
        rcases hw4 with h | h | h | h <;> rw [h] at hlen ⊢ <;> omega
      have hsplit : chunk = chunk.take k.width ++ chunk.drop k.width :=
        (List.take_append_drop k.width chunk).symm
      have hstream : chunk ++ srest =
          chunk.take k.width ++ (chunk.drop k.width ++ srest) := by
        conv_lhs => rw [hsplit]
        rw [List.append_assoc]
      rw [show takeRd (FieldSt.mk k frem ((m + 1 + 1) * k.width) isLE).kind.width
            (chunk ++ srest) = takeRd k.width (chunk ++ srest) from rfl]
      rw [hstream, takeRd_append k.width _ _ hc1len]
      simp only [Field.advance]
      rw [if_neg (by rcases hw4 with h | h | h | h <;> rw [h] <;> omega)]
      rw [trExt_eq]
      have hws : wsub8 ((m + 1 + 1) * k.width)
          (FieldSt.mk k frem ((m + 1 + 1) * k.width) isLE).kind.width
            = (m + 1) * k.width := by
        show wsub8 ((m + 1 + 1) * k.width) k.width = (m + 1) * k.width
        unfold wsub8
        rcases hw4 with h | h | h | h <;> rw [h] at h2 ⊢ <;> omega
      rw [show (FieldSt.mk k frem ((m + 1 + 1) * k.width) isLE).kind.width
            = k.width from rfl] at hws
      simp only [hws]
      rw [ih (chunk.drop k.width) srest (i + k.width)
        (compute_crc c (chunk.take k.width)) (fuel - 1) _
        (by omega)
        (by rcases hw4 with h | h | h | h <;> rw [h] at h2 ⊢ <;> omega)
        (by rw [List.length_drop, hlen]
            rcases hw4 with h | h | h | h <;> rw [h] <;> omega)
        (by omega)]
      conv_rhs => rw [hsplit]
      rw [chunksW_cons k.width _ _ hW hc1len]
      rw [refElems_cons]
      rw [← hsplit]
      rw [← compute_crc_append, List.take_append_drop]
      rw [show i + k.width + (m + 1) * k.width = i + (m + 1 + 1) * k.width
        from by rcases hw4 with h | h | h | h <;> rw [h] <;> omega]
      rw [List.append_assoc]

/-- The field loop of the reader driver's data pass. -/
theorem decode_data_fields_reader_ok (isLE : Bool) (accept : Bool)
    (F : Nat) :
    ∀ (fs : List FieldDef) (payload srest : List Nat) (i c fuel : Nat)
      (tr : List SinkCall),
    fs ≠ [] →
    fs.all FieldDef.wfb = true →
    payload.length = sizeSum fs →
    fs.length ≤ fuel →
    payload.length ≤ F →
    decode_data_fields_reader F fuel ⟨fs.length, isLE⟩
        (fs.flatMap FieldDef.bytes) (payload ++ srest) i c accept tr =
      .ok (srest, i + payload.length, compute_crc c payload,
        tr ++ refFields isLE accept fs payload) := by
  intro fs
  induction fs with
  | nil => intro payload srest i c fuel tr hne; exact absurd rfl hne
  | cons fd fs ih =>
    intro payload srest i c fuel tr hne hwf hplen hfuel hF
    simp only [List.all_cons, Bool.and_eq_true] at hwf
    obtain ⟨k, hk, hnum, hsz, hszpos, hdvd⟩ := fieldDef_wfb_elim fd hwf.1
    have hW := BaseKind.width_pos k
    obtain ⟨m, hm⟩ := hdvd
    have hm1 : 1 ≤ m := by
      rcases Nat.eq_zero_or_pos m with h0 | h
      · subst h0; simp at hm; omega
      · omega
    have hmul : fd.size = m * k.width := by rw [hm]; ring
    have hmW : m ≤ m * k.width := by
      calc m = m * 1 := by omega
      _ ≤ m * k.width := Nat.mul_le_mul_left m hW
    rw [sizeSum_cons] at hplen
    have hszle : fd.size ≤ payload.length := by omega
    rw [decode_data_fields_reader_unfold F fuel
      (by simp only [List.length_cons] at hfuel; omega)]
    have hflat : (fd :: fs).flatMap FieldDef.bytes =
        [fd.num, fd.size, fd.base] ++ fs.flatMap FieldDef.bytes := by
      simp [FieldDef.bytes]
    rw [hflat, takeRd_append 3 _ _ (by simp)]
    have hadv := definitionFieldAlt_advance_known ⟨(fd :: fs).length, isLE⟩
      fd.num fd.size fd.base k hk
    have hfr : ((⟨(fd :: fs).length, isLE⟩ :
        DefinitionFieldAlt).fields_remaining) - 1 = fs.length := by
      simp
    rw [hfr] at hadv
    have htlen : (payload.take fd.size).length = fd.size := by
      rw [List.length_take]; omega
    have hstream : payload ++ srest =
        payload.take fd.size ++ (payload.drop fd.size ++ srest) := by
      conv_lhs => rw [(List.take_append_drop fd.size payload).symm]
      rw [List.append_assoc]
    have hfe := decode_field_reader_ok k fs.length isLE fd.num accept m
      (payload.take fd.size) (payload.drop fd.size ++ srest) i c F tr hm1
      (by omega) (by rw [htlen, hmul]) (by omega)
    rw [← hmul] at hfe
    rw [hstream]
    simp only [hadv, hfe]
    cases fs with
    | nil =>
      have hplen2 : payload.length = fd.size := by
        simp [sizeSum] at hplen
        omega
      rw [if_neg (show ¬(([] : List FieldDef).length ≠ 0) from by simp)]
      simp only []
      simp only [refFields_cons, hk, refFields_nil, List.append_nil]
      have hpeq : payload.take fd.size = payload :=
        List.take_of_length_le (by omega)
      rw [hpeq]
      rw [show i + fd.size = i + payload.length from by omega]
      have hdeq : payload.drop fd.size = [] :=
        List.drop_eq_nil_of_le (by omega)
      rw [hdeq]
      simp only [List.nil_append]
    | cons f2 fs2 =>
      rw [if_pos (show (f2 :: fs2).length ≠ 0 from by simp)]
      simp only []
      have hfuel2 : (f2 :: fs2).length ≤ fuel - 1 := by
        simp only [List.length_cons] at hfuel ⊢
        omega
      have hdlen : (payload.drop fd.size).length = sizeSum (f2 :: fs2) := by
        rw [List.length_drop]
        omega
      have hdF : (payload.drop fd.size).length ≤ F := by
        rw [List.length_drop]
        omega
      rw [ih (payload.drop fd.size) srest (i + fd.size)
        (compute_crc c (payload.take fd.size)) (fuel - 1)
        (tr ++ refElems k isLE fd.num accept
          (chunksW k.width (payload.take fd.size)))
        (by simp) hwf.2 hdlen hfuel2 hdF]
      simp only [refFields_cons, hk]
      rw [show i + fd.size + (payload.drop fd.size).length
            = i + payload.length from by rw [List.length_drop]; omega]
      rw [List.append_assoc]
      rw [← compute_crc_append]
      rw [List.take_append_drop]

/-- `reader::decode_data`: the stored buffer is consumed as the
d-cursor, the payload is consumed from the stream (CRC'd), and the
reference trace of the record is produced.  The d-cursor bytes touch
neither the counter nor the CRC. -/
theorem decode_data_reader_ok (body : DefBody) (time : Option Nat)
    (payload srest : List Nat) (i c F : Nat) (A : AcceptFn)
    (tr : List SinkCall)
    (hwf : body.wfb = true)
    (hplen : payload.length = sizeSum body.fields)
    (hF : payload.length ≤ F)
    (hFf : body.fields.length ≤ F) :
    decode_data_reader F time body.bytes (payload ++ srest) i c A tr =
      .ok (srest, i + payload.length, compute_crc c payload,
        refDataBody A body time tr payload) := by
  obtain ⟨hrsv, harch, hg0, hg1, hflen, hfall⟩ := defBody_wfb_elim body hwf
  unfold decode_data_reader
  rw [defBody_bytes_split]
  rw [takeRd_append 5 _ _ (by simp)]
  simp only [definitionAlt_advance_eq]
  unfold refDataBody
  by_cases hcnt : body.fields = []
  · rw [if_neg (by simp [hcnt])]
    simp only []
    rw [hcnt] at hplen
    simp only [sizeSum, List.map_nil, List.sum_nil] at hplen
    have hpe : payload = [] := List.eq_nil_of_length_eq_zero hplen
    rw [hpe]
    simp only [hcnt, refFields_nil, List.append_nil, List.nil_append,
      Nat.add_zero, compute_crc]
    rfl
  · rw [if_pos (by simp [hcnt])]
    simp only []
    rw [decode_data_fields_reader_ok (decide (body.arch = 0))
      (A tr (if body.arch = 0 then leVal [body.g0, body.g1]
             else beVal [body.g0, body.g1]))
      F body.fields payload srest i c F _ hcnt hfall hplen hFf hF]

/-- The descriptor loop of `reader::decode_definition` consumes `3 * n`
stream bytes, CRC's them, and appends them to the slot buffer. -/
theorem decode_definition_fields_reader_ok :
    ∀ (n : Nat) (bs d srest : List Nat) (i c fuel : Nat),
    1 ≤ n → bs.length = 3 * n → n ≤ fuel →
    decode_definition_fields_reader fuel n d (bs ++ srest) i c =
      .ok (d ++ bs, srest, i + 3 * n, compute_crc c bs) := by
  intro n
  induction n with
  | zero => intro bs d srest i c fuel h1; omega
  | succ n ih =>
    intro bs d srest i c fuel h1 hlen hfuel
    rw [decode_definition_fields_reader_unfold fuel (by omega)]
    cases n with
    | zero =>
      rw [takeRd_append 3 bs srest (by omega)]
      simp only [DefinitionField.advance, Nat.add_sub_cancel]
      rw [show i + 3 * 1 = i + 3 from by omega]
      rw [if_neg (by simp)]
    | succ n2 =>
      have hsplit : bs = bs.take 3 ++ bs.drop 3 :=
        (List.take_append_drop 3 bs).symm
      have hstream : bs ++ srest = bs.take 3 ++ (bs.drop 3 ++ srest) := by
        conv_lhs => rw [hsplit]
        rw [List.append_assoc]
      have ht3 : (bs.take 3).length = 3 := by
        rw [List.length_take]; omega
      rw [hstream, takeRd_append 3 _ _ ht3]
      simp only [DefinitionField.advance, Nat.add_sub_cancel]
      rw [if_pos (by simp)]
      simp only []
      rw [ih (bs.drop 3) (d ++ bs.take 3) srest (i + 3)
        (compute_crc c (bs.take 3)) (fuel - 1) (by omega)
        (by rw [List.length_drop]; omega) (by omega)]
      rw [List.append_assoc, ← hsplit]
      rw [← compute_crc_append, ← hsplit]
      rw [show i + 3 + 3 * (n2 + 1) = i + 3 * (n2 + 1 + 1) from by omega]

/-- `reader::decode_definition`: captures the whole definition body from
the stream into the slot buffer, advancing the counter and the CRC. -/
theorem decode_definition_reader_ok (body : DefBody) (srest : List Nat)
    (i c F : Nat) (hF : body.fields.length ≤ F) :
    decode_definition_reader F (body.bytes ++ srest) i c =
      .ok (body.bytes, srest, i + body.bytes.length,
        compute_crc c body.bytes) := by
  have hblen := defBody_bytes_length body
  have hflatlen := flatMap_bytes_length body.fields
  unfold decode_definition_reader
  rw [defBody_bytes_split, List.append_assoc]
  rw [takeRd_append 5 _ _ (by simp)]
  simp only [definition_advance_eq]
  by_cases hcnt : body.fields.length = 0
  · rw [if_neg (by omega)]
    simp only []
    have hfe : body.fields = [] := List.eq_nil_of_length_eq_zero hcnt
    rw [hfe]
    simp
  · rw [if_pos (by omega)]
    simp only []
    rw [decode_definition_fields_reader_ok body.fields.length
      (body.fields.flatMap FieldDef.bytes)
      [body.rsv, body.arch, body.g0, body.g1, body.fields.length] srest
      (i + 5) _ F (by omega) hflatlen hF]
    rw [← defBody_bytes_split]
    rw [← compute_crc_append, ← defBody_bytes_split]
    rw [show i + 5 + 3 * body.fields.length = i + body.bytes.length from
      by omega]

/-! ## Refinement: the reader record loop -/

/-- Invariant tying the reader driver's slot buffers to the definition
environment: every defined slot's buffer holds exactly that definition's
body bytes (the `F` bound keeps enough fuel for its field count). -/
def defsInv (defs : Nat → List Nat) (env : DefEnv) (F : Nat) : Prop :=
  ∀ l body, env l = some body →
    defs l = body.bytes ∧ body.wfb = true ∧ body.fields.length ≤ F

theorem defsInv_init (F : Nat) : defsInv (fun _ => []) (fun _ => none) F := by
  intro l b h
  exact absurd h (by simp)

/-- The record loop of `reader::decode` on a well-formed serialized
record section: consumes exactly the section from the stream, rolls the
CRC over it, and produces exactly the reference trace. -/
theorem decode_records_reader_ok (A : AcceptFn) (F : Nat) :
    ∀ (rs : List Rec) (env : DefEnv) (defs : Nat → List Nat)
      (srest : List Nat) (i c fuel : Nat) (tr : List SinkCall),
    recsWFb env rs = true →
    defsInv defs env F →
    rs.length < fuel →
    (recsBytes rs).length < F →
    decode_records_reader F fuel (recsBytes rs ++ srest) i
        (i + (recsBytes rs).length) c defs A tr =
      .ok (srest, i + (recsBytes rs).length,
        compute_crc c (recsBytes rs), refRecords A env tr rs) := by
  intro rs
  induction rs with
  | nil =>
    intro env defs srest i c fuel tr hwf hinv hfuel hFr
    rw [decode_records_reader_unfold F fuel (by omega)]
    rw [if_neg (by simp [recsBytes])]
    simp [recsBytes, compute_crc, refRecords]
  | cons rec rest ih =>
    intro env defs srest i c fuel tr hwf hinv hfuel hFr
    simp only [recsWFb, Bool.and_eq_true] at hwf
    obtain ⟨hwf1, hwf2⟩ := hwf
    have hrecs : recsBytes (rec :: rest) = rec.bytes ++ recsBytes rest := by
      simp [recsBytes]
    have hrl := recBytes_length_pos rec
    rw [hrecs] at hFr ⊢
    rw [decode_records_reader_unfold F fuel (by omega)]
    rw [if_pos (by simp [List.length_append]; omega)]
    cases rec with
    | defn lcl body =>
      simp only [recWFb, Bool.and_eq_true, decide_eq_true_eq] at hwf1
      obtain ⟨hl16, hbwf⟩ := hwf1
      have hbytes : (Rec.defn lcl body).bytes = (64 + lcl) :: body.bytes := by
        simp [Rec.bytes]
      have hstream : (Rec.defn lcl body).bytes ++ (recsBytes rest ++ srest) =
          [64 + lcl] ++ (body.bytes ++ (recsBytes rest ++ srest)) := by
        rw [hbytes]
        simp
      rw [List.append_assoc, hstream]
      rw [takeRd_append 1 _ _ (by simp)]
      simp only [recordHeader_advance_defn lcl hl16]
      have hblen := defBody_bytes_length body
      rw [decode_definition_reader_ok body (recsBytes rest ++ srest)
        (i + 1) (compute_crc c [64 + lcl]) F
        (by rw [hbytes] at hFr; simp at hFr; omega)]
      simp only []
      have hinv2 : defsInv (updf defs lcl body.bytes)
          (updf env lcl (some body)) F := by
        intro l b hlb
        unfold updf at hlb ⊢
        by_cases hle : l = lcl
        · rw [if_pos hle] at hlb ⊢
          cases Option.some.inj hlb
          refine ⟨rfl, hbwf, ?_⟩
          rw [hbytes] at hFr
          simp at hFr
          omega
        · rw [if_neg hle] at hlb ⊢
          exact hinv l b hlb
      rw [show i + ((Rec.defn lcl body).bytes ++ recsBytes rest).length
            = i + 1 + body.bytes.length + (recsBytes rest).length from by
        rw [hbytes]; simp; omega]
      rw [ih (updf env lcl (some body)) (updf defs lcl body.bytes) srest
        (i + 1 + body.bytes.length) (compute_crc (compute_crc c [64 + lcl])
          body.bytes) (fuel - 1) tr hwf2 hinv2
        (by simp at hfuel; omega)
        (by rw [hbytes] at hFr; simp at hFr; omega)]
      rw [hbytes]
      have hc1 : compute_crc (compute_crc (compute_crc c [64 + lcl])
          body.bytes) (recsBytes rest)
          = compute_crc c (((64 + lcl) :: body.bytes) ++ recsBytes rest) := by
        rw [compute_crc_append, show ((64 + lcl) :: body.bytes)
          = [64 + lcl] ++ body.bytes from rfl, compute_crc_append]
      rw [hc1]
      rw [show i + 1 + body.bytes.length + (recsBytes rest).length
            = i + (((64 + lcl) :: body.bytes) ++ recsBytes rest).length from
        by simp; omega]
      simp [refRecords, recUpd]
    | data lcl time payload =>
      simp only [recWFb, Bool.and_eq_true] at hwf1
      obtain ⟨⟨hhead, henv⟩, hpb⟩ := hwf1
      have henv2 : ∃ body, env lcl = some body ∧
          payload.length = sizeSum body.fields := by
        rcases hb : env lcl with _ | b
        · rw [hb] at henv; simp at henv
        · rw [hb] at henv
          simp only [decide_eq_true_eq] at henv
          exact ⟨b, rfl, henv⟩
      obtain ⟨body, hbody, hplen2⟩ := henv2
      have hinvl := hinv lcl body hbody
      have hbytes : (Rec.data lcl time payload).bytes =
          dataHeaderByte lcl time :: payload := by
        cases time <;> simp [Rec.bytes, dataHeaderByte]
      have hstream : (Rec.data lcl time payload).bytes ++
          (recsBytes rest ++ srest) = [dataHeaderByte lcl time] ++
            (payload ++ (recsBytes rest ++ srest)) := by
        rw [hbytes]
        simp
      rw [List.append_assoc, hstream]
      rw [takeRd_append 1 _ _ (by simp)]
      have hadvh : RecordHeader.advance [dataHeaderByte lcl time]
          = .ok (lcl, .inr time) := by
        unfold dataHeaderByte
        cases time with
        | none =>
          simp only [decide_eq_true_eq] at hhead
          exact recordHeader_advance_data lcl hhead
        | some t =>
          simp only [Bool.and_eq_true, decide_eq_true_eq] at hhead
          exact recordHeader_advance_compressed lcl t hhead.1 hhead.2
      simp only [hadvh]
      rw [hinvl.1]
      rw [decode_data_reader_ok body time payload (recsBytes rest ++ srest)
        (i + 1) (compute_crc c [dataHeaderByte lcl time]) F A tr
        hinvl.2.1 hplen2
        (by rw [hbytes] at hFr; simp at hFr; omega)
        hinvl.2.2]
      simp only []
      rw [show i + ((Rec.data lcl time payload).bytes ++ recsBytes rest).length
            = i + 1 + payload.length + (recsBytes rest).length from by
        rw [hbytes]; simp; omega]
      rw [ih env defs srest (i + 1 + payload.length)
        (compute_crc (compute_crc c [dataHeaderByte lcl time]) payload)
        (fuel - 1) (refDataBody A body time tr payload) hwf2 hinv
        (by simp at hfuel; omega)
        (by rw [hbytes] at hFr; simp at hFr; omega)]
      rw [hbytes]
      have hc1 : compute_crc (compute_crc (compute_crc c
          [dataHeaderByte lcl time]) payload) (recsBytes rest)
          = compute_crc c ((dataHeaderByte lcl time :: payload) ++
              recsBytes rest) := by
        rw [compute_crc_append, show (dataHeaderByte lcl time :: payload)
          = [dataHeaderByte lcl time] ++ payload from rfl,
          compute_crc_append]
      rw [hc1]
      rw [show i + 1 + payload.length + (recsBytes rest).length
            = i + ((dataHeaderByte lcl time :: payload) ++
                recsBytes rest).length from by simp; omega]
      simp [refRecords, recUpd, refData, hbody]

/-- `reader::decode` on a serialized well-formed document followed by two
arbitrary trailing bytes: the final CRC comparison decides everything,
and on a match the decode returns exactly the reference trace. -/
theorem decode_reader_eq (d : Document) (t0 t1 : Nat) (A : AcceptFn)
    (hwf : d.wfb = true) :
    decode_reader (d.bodyBytes ++ [t0, t1]) A =
      if leVal [t0, t1] ≠ compute_crc 0 d.bodyBytes then
        .error (.cyclicRedundancyCheck (leVal [t0, t1])
          (compute_crc 0 d.bodyBytes))
      else .ok (d.refTrace A) := by
  obtain ⟨hpv, hp0, hp1, he0, he1, hszlt, hrswf⟩ := document_wfb_elim d hwf
  have hhdrlen : d.headerBytes.length = if d.extended then 14 else 12 := by
    unfold Document.headerBytes
    cases d.extended <;> simp [le32]
  have hbodylen : d.bodyBytes.length =
      d.headerBytes.length + (recsBytes d.records).length := by
    unfold Document.bodyBytes
    simp
  have hrlen : (d.bodyBytes ++ [t0, t1]).length = d.bodyBytes.length + 2 := by
    simp
  have hrsl := recs_length_le d.records
  cases hext : d.extended with
  | false =>
    have hpre : d.headerBytes =
        [12, d.protocolVersion, d.profile0, d.profile1] ++
          le32 (recsBytes d.records).length ++ [0x2E, 0x46, 0x49, 0x54] := by
      unfold Document.headerBytes
      rw [hext]
      simp
    have hr : d.bodyBytes ++ [t0, t1] =
        d.headerBytes ++ (recsBytes d.records ++ [t0, t1]) := by
      unfold Document.bodyBytes
      simp
    rw [hext] at hhdrlen
    simp at hhdrlen
    unfold decode_reader
    rw [hr, takeRd_append 12 d.headerBytes _ hhdrlen]
    simp only [hpre, documentHeader_advance12 _ _ _ _ hszlt]
    simp only [← hpre, Bool.false_eq_true, if_false]
    rw [decode_records_reader_ok A _ d.records (fun _ => none)
      (fun _ => []) [t0, t1] 12 (compute_crc 0 d.headerBytes) _ []
      hrswf (defsInv_init _)
      (by rw [← hr, hrlen]; omega) (by rw [← hr, hrlen]; omega)]
    simp only []
    rw [show takeRd 2 [t0, t1] = .ok ([t0, t1], ([] : List Nat)) from rfl]
    simp only []
    rw [← compute_crc_append]
    rw [show d.headerBytes ++ recsBytes d.records = d.bodyBytes from rfl]
    rfl
  | true =>
    have hpre : d.headerBytes =
        ([14, d.protocolVersion, d.profile0, d.profile1] ++
          le32 (recsBytes d.records).length ++ [0x2E, 0x46, 0x49, 0x54]) ++
          [d.ext0, d.ext1] := by
      unfold Document.headerBytes
      rw [hext]
      simp
    have hp12len : ([14, d.protocolVersion, d.profile0, d.profile1] ++
        le32 (recsBytes d.records).length ++
        [0x2E, 0x46, 0x49, 0x54] : List Nat).length = 12 := by
      simp [le32]
    have hr : d.bodyBytes ++ [t0, t1] =
        ([14, d.protocolVersion, d.profile0, d.profile1] ++
            le32 (recsBytes d.records).length ++ [0x2E, 0x46, 0x49, 0x54]) ++
          ([d.ext0, d.ext1] ++ (recsBytes d.records ++ [t0, t1])) := by
      unfold Document.bodyBytes
      rw [hpre]
      simp
    rw [hext] at hhdrlen
    simp at hhdrlen
    unfold decode_reader
    rw [hr, takeRd_append 12 _ _ hp12len]
    simp only [documentHeader_advance14 _ _ _ _ hszlt, if_true]
    rw [takeRd_append 2 [d.ext0, d.ext1] _ (by simp)]
    simp only [Except.map]
    rw [decode_records_reader_ok A _ d.records (fun _ => none)
      (fun _ => []) [t0, t1] 14 _ _ [] hrswf (defsInv_init _)
      (by rw [← hr, hrlen]; omega) (by rw [← hr, hrlen]; omega)]
    simp only []
    rw [show takeRd 2 [t0, t1] = .ok ([t0, t1], ([] : List Nat)) from rfl]
    simp only []
    rw [← compute_crc_append, ← compute_crc_append]
    rw [show ([14, d.protocolVersion, d.profile0, d.profile1] ++
        le32 (recsBytes d.records).length ++ [0x2E, 0x46, 0x49, 0x54]) ++
        ([d.ext0, d.ext1] ++ recsBytes d.records) = d.bodyBytes from by
      unfold Document.bodyBytes
      rw [hpre]
      simp]
    rfl

/-! ## Bounding the CRC accumulator -/

theorem crcTable_getD_lt (n : Nat) : crcTable.getD n 0 < 65536 := by
  by_cases h : n < 16
  · interval_cases n <;> decide
  · have hlen : crcTable.length ≤ n := by
      simp [crcTable]
      omega
    rw [List.getD_eq_default _ _ hlen]
    omega

theorem xor16 (a b : Nat) (ha : a < 65536) (hb : b < 65536) :
    Nat.xor a b < 65536 := by
  have h : Nat.xor a b < 2 ^ 16 :=
    Nat.xor_lt_two_pow (by omega) (by omega)
  omega

theorem crc_byte_lt (crc b : Nat) : crc_byte crc b < 65536 := by
  unfold crc_byte
  exact xor16 _ _ (xor16 _ _ (by omega) (crcTable_getD_lt _))
    (crcTable_getD_lt _)

theorem compute_crc_lt (init : Nat) (r : List Nat) (h : init < 65536) :
    compute_crc init r < 65536 := by
  induction r generalizing init with
  | nil => simpa [compute_crc]
  | cons b rest ih =>
    rw [show compute_crc init (b :: rest) =
      compute_crc (crc_byte init b) rest from rfl]
    exact ih _ (crc_byte_lt _ _)

/-! ## Chunk counting -/

/-- A byte list whose length is `m` widths splits into exactly `m` chunks,
the chunks concatenate back to the list in stream order, and every chunk
is exactly one width wide. -/
theorem chunksW_spec (w : Nat) (hw : 0 < w) :
    ∀ (m : Nat) (bs : List Nat), bs.length = m * w →
      (chunksW w bs).length = m ∧ (chunksW w bs).flatten = bs ∧
      ∀ c ∈ chunksW w bs, c.length = w := by
  intro m
  induction m with
  | zero =>
    intro bs h
    have hnil : bs = [] := List.length_eq_zero.mp (by omega)
    subst hnil
    simp [chunksW_nil]
  | succ m ih =>
    intro bs h
    have hwle : w ≤ bs.length := by
      rw [h, Nat.succ_mul]
      omega
    have htl : (bs.take w).length = w := by
      rw [List.length_take]
      omega
    have hdl : (bs.drop w).length = m * w := by
      rw [List.length_drop, h, Nat.succ_mul]
      omega
    obtain ⟨ih1, ih2, ih3⟩ := ih (bs.drop w) hdl
    have hsplit : bs = bs.take w ++ bs.drop w :=
      (List.take_append_drop w bs).symm
    rw [hsplit, chunksW_cons w _ _ (by omega) htl]
    refine ⟨by simp [ih1], ?_, ?_⟩
    · rw [List.flatten_cons, ih2]
    · intro c hc
      rcases List.mem_cons.mp hc with h1 | h2
      · rw [h1]
        exact htl
      · exact ih3 c h2

/-! ## The claims about whole-document runs -/

/-- A small two-record document (one definition for slot 0 with a single
two-byte `u16` field, one data record for that slot), used to witness the
whole-document claims. -/
def w1doc : Document :=
  { extended := false, protocolVersion := 16, profile0 := 100,
    profile1 := 0, ext0 := 0, ext1 := 0,
    records := [
      .defn 0 ⟨0, 0, 20, 0, [⟨1, 2, 0x84⟩]⟩,
      .data 0 none [1, 2]] }

/-- Both drivers on a well-formed document serialized with its matching
trailing CRC: both succeed with exactly the reference trace. -/
theorem decode_both_ok (d : Document) (A : AcceptFn)
    (hwf : d.wfb = true) :
    decode_slice d.bytes A = .ok (d.refTrace A) ∧
    decode_reader d.bytes A = .ok (d.refTrace A) := by
  have hlt : compute_crc 0 d.bodyBytes < 65536 :=
    compute_crc_lt 0 _ (by omega)
  have hb : d.bytes = d.bodyBytes ++
      [compute_crc 0 d.bodyBytes % 256,
       compute_crc 0 d.bodyBytes / 256 % 256] := rfl
  have hle : leVal [compute_crc 0 d.bodyBytes % 256,
      compute_crc 0 d.bodyBytes / 256 % 256] = compute_crc 0 d.bodyBytes := by
    simp [leVal]
    omega
  have hs := decode_slice_eq d (compute_crc 0 d.bodyBytes % 256)
    (compute_crc 0 d.bodyBytes / 256 % 256) A hwf
  have hrd := decode_reader_eq d (compute_crc 0 d.bodyBytes % 256)
    (compute_crc 0 d.bodyBytes / 256 % 256) A hwf
  rw [hle] at hs hrd
  rw [if_neg (by simp)] at hs hrd
  rw [hb]
  exact ⟨hs, hrd⟩

/-- Claim C1.  For every well-formed document (serialized with its
matching trailing CRC), both drivers succeed and produce exactly the
reference trace of sink calls — the same sequence in the same order. -/
theorem C1_driver_equivalence (d : Document) (A : AcceptFn)
    (hwf : d.wfb = true) :
    decode_slice d.bytes A = .ok (d.refTrace A) ∧
    decode_reader d.bytes A = .ok (d.refTrace A) ∧
    decode_slice d.bytes A = decode_reader d.bytes A := by
  obtain ⟨h1, h2⟩ := decode_both_ok d A hwf
  exact ⟨h1, h2, by rw [h1, h2]⟩

/-- Witness for C1 on the concrete document `w1doc`. -/
theorem C1_driver_equivalence_witness :
    decode_slice w1doc.bytes acceptAll = .ok (w1doc.refTrace acceptAll) ∧
    decode_reader w1doc.bytes acceptAll = .ok (w1doc.refTrace acceptAll) ∧
    decode_slice w1doc.bytes acceptAll = decode_reader w1doc.bytes acceptAll :=
  C1_driver_equivalence w1doc acceptAll (by decide)

/-- Claim C5.  In both drivers the CRC accumulator starts at 0 and covers
exactly the header and record-section bytes (`d.bodyBytes`; the bytes a
data record re-reads from a stored definition are not accumulated), and
decode fails with `CyclicRedundancyCheck {found, calculated}` if and only
if the trailing little-endian `u16` differs from the accumulated value. -/
theorem C5_crc_accumulator (d : Document) (t0 t1 : Nat) (A : AcceptFn)
    (hwf : d.wfb = true) :
    (decode_slice (d.bodyBytes ++ [t0, t1]) A =
        .error (.cyclicRedundancyCheck (leVal [t0, t1])
          (compute_crc 0 d.bodyBytes)) ↔
      leVal [t0, t1] ≠ compute_crc 0 d.bodyBytes) ∧
    (decode_reader (d.bodyBytes ++ [t0, t1]) A =
        .error (.cyclicRedundancyCheck (leVal [t0, t1])
          (compute_crc 0 d.bodyBytes)) ↔
      leVal [t0, t1] ≠ compute_crc 0 d.bodyBytes) ∧
    (leVal [t0, t1] = compute_crc 0 d.bodyBytes →
      decode_slice (d.bodyBytes ++ [t0, t1]) A = .ok (d.refTrace A) ∧
      decode_reader (d.bodyBytes ++ [t0, t1]) A = .ok (d.refTrace A)) := by
  have hs := decode_slice_eq d t0 t1 A hwf
  have hrd := decode_reader_eq d t0 t1 A hwf
  by_cases hc : leVal [t0, t1] ≠ compute_crc 0 d.bodyBytes
  · rw [if_pos hc] at hs hrd
    refine ⟨⟨fun _ => hc, fun _ => hs⟩, ⟨fun _ => hc, fun _ => hrd⟩, ?_⟩
    intro he
    exact absurd he hc
  · rw [if_neg hc] at hs hrd
    refine ⟨⟨?_, fun h => absurd h hc⟩, ⟨?_, fun h => absurd h hc⟩,
      fun _ => ⟨hs, hrd⟩⟩
    · intro h
      rw [hs] at h
      exact absurd h (by simp)
    · intro h
      rw [hrd] at h
      exact absurd h (by simp)

/-- Witness for C5 on `w1doc` with the (mismatching) trailing bytes
`[0, 1]`. -/
theorem C5_crc_accumulator_witness :
    (decode_slice (w1doc.bodyBytes ++ [0, 1]) acceptAll =
        .error (.cyclicRedundancyCheck (leVal [0, 1])
          (compute_crc 0 w1doc.bodyBytes)) ↔
      leVal [0, 1] ≠ compute_crc 0 w1doc.bodyBytes) ∧
    (decode_reader (w1doc.bodyBytes ++ [0, 1]) acceptAll =
        .error (.cyclicRedundancyCheck (leVal [0, 1])
          (compute_crc 0 w1doc.bodyBytes)) ↔
      leVal [0, 1] ≠ compute_crc 0 w1doc.bodyBytes) ∧
    (leVal [0, 1] = compute_crc 0 w1doc.bodyBytes →
      decode_slice (w1doc.bodyBytes ++ [0, 1]) acceptAll =
        .ok (w1doc.refTrace acceptAll) ∧
      decode_reader (w1doc.bodyBytes ++ [0, 1]) acceptAll =
        .ok (w1doc.refTrace acceptAll)) :=
  C5_crc_accumulator w1doc 0 1 acceptAll (by decide)

/-- Claim C7.  On every well-formed document both drivers produce exactly
the reference trace, whose construction dispatches data records in byte
order, fields within a record in descriptor order, and the elements of
each field in stream order; and a field payload of `m` widths is split
into exactly `m` width-sized element chunks whose concatenation is the
payload in order. -/
theorem C7_ordering (d : Document) (A : AcceptFn) (hwf : d.wfb = true) :
    decode_slice d.bytes A = .ok (d.refTrace A) ∧
    decode_reader d.bytes A = .ok (d.refTrace A) ∧
    ∀ (k : BaseKind) (bs : List Nat) (m : Nat), bs.length = m * k.width →
      (chunksW k.width bs).length = m ∧
      (chunksW k.width bs).flatten = bs ∧
      ∀ c ∈ chunksW k.width bs, c.length = k.width := by
  obtain ⟨h1, h2⟩ := decode_both_ok d A hwf
  exact ⟨h1, h2, fun k bs m hm =>
    chunksW_spec k.width (BaseKind.width_pos k) m bs hm⟩

/-- Witness for C7 on `w1doc`, with the chunk property instantiated at a
two-element `u16` payload. -/
theorem C7_ordering_witness :
    (decode_slice w1doc.bytes acceptAll = .ok (w1doc.refTrace acceptAll) ∧
     decode_reader w1doc.bytes acceptAll = .ok (w1doc.refTrace acceptAll) ∧
     ∀ (k : BaseKind) (bs : List Nat) (m : Nat), bs.length = m * k.width →
       (chunksW k.width bs).length = m ∧
       (chunksW k.width bs).flatten = bs ∧
       ∀ c ∈ chunksW k.width bs, c.length = k.width) ∧
    ([10, 20, 30, 40] : List Nat).length = 2 * BaseKind.u16.width :=
  ⟨C7_ordering w1doc acceptAll (by decide), by decide⟩

end Derailleur
